import Mathlib

/-!
# Verification of the jumpserve front-end chart engine

Shallow embedding of the client-side charting engine
(`src/unnamed/part_000`, the `EmulatedRunsDashboard` / `MetricChart`
component) and of the parent-run sort in `src/app/page.tsx`.

JavaScript numbers are modelled as `ℚ`.  The upstream data loader
(`page.tsx`, `toNumber`) coerces every non-convertible or non-finite
numeric field to `null` before the chart engine runs, so a present
number is always finite; `null` is modelled as `Option.none` and the
`Number.isFinite` guards of the source reduce to presence of the value.
The explicit decimal roundings of the source (`toFixed(10)` for axis
ticks, `toFixed(3)` for sum buckets) are modelled exactly as rounding
to that many decimal digits.
-/

namespace Jumpserve

/-- Result of `buildNiceYTicks` (`{min, max, ticks}` in the source). -/
structure TickScale where
  min : ℚ
  max : ℚ
  ticks : List ℚ
  deriving DecidableEq, Repr

/-- `Number(value.toFixed(10))`: round to 10 decimal digits. -/
def toFixed10 (q : ℚ) : ℚ := round (q * 10 ^ 10) / 10 ^ 10

/-- `getNiceStep` (src/unnamed/part_000 lines 162-180).  The
`Number.isFinite` guard is vacuous over `ℚ`; the `rawStep <= 0` guard is
kept.  `10 ** Math.floor(Math.log10 rawStep)` is `(10 : ℚ) ^ (Int.log 10
rawStep)`. -/
def getNiceStep (rawStep : ℚ) : ℚ :=
  if rawStep ≤ 0 then 1
  else
    let magnitude : ℚ := (10 : ℚ) ^ (Int.log 10 rawStep)
    let fraction := rawStep / magnitude
    if fraction ≤ 1 then magnitude
    else if fraction ≤ 2 then 2 * magnitude
    else if fraction ≤ 5 then 5 * magnitude
    else 10 * magnitude

/-- The symmetric expansion `buildNiceYTicks` applies when
`minValue === maxValue` (lines 187-191): the new lower bound. -/
def expandedMin (minValue maxValue : ℚ) : ℚ :=
  if minValue = maxValue then
    minValue - (if minValue = 0 then 1 else |minValue| * (2 / 10))
  else minValue

/-- The symmetric expansion's new upper bound (lines 187-191). -/
def expandedMax (minValue maxValue : ℚ) : ℚ :=
  if minValue = maxValue then
    maxValue + (if minValue = 0 then 1 else |minValue| * (2 / 10))
  else maxValue

/-- The tick loop of `buildNiceYTicks` (line 199):
`for (value = niceMin; value <= bound; value += step)` collecting
`value`.  The source only runs it with `step > 0` (`getNiceStep` is
positive); the `0 < step` guard makes the translation total (with
`step ≤ 0` the JS loop would never terminate). -/
def ticksFrom (step bound value : ℚ) : List ℚ :=
  if h : 0 < step ∧ value ≤ bound then
    value :: ticksFrom step bound (value + step)
  else []
termination_by (⌊(bound - value) / step⌋ + 1).toNat
decreasing_by
  have hstep : 0 < step := h.1
  have h1 : (bound - (value + step)) / step = (bound - value) / step - 1 := by
    field_simp
    ring
  have h2 : ⌊(bound - (value + step)) / step⌋ = ⌊(bound - value) / step⌋ - 1 := by
    rw [h1, Int.floor_sub_one]
  have h3 : (0 : ℚ) ≤ (bound - value) / step :=
    div_nonneg (by linarith) (le_of_lt hstep)
  have h4 : (0 : ℤ) ≤ ⌊(bound - value) / step⌋ := Int.floor_nonneg.mpr h3
  rw [h2]
  omega

/-- `rawStep = (maxValue - minValue) / Math.max(count - 1, 1)` on the
(possibly expanded) bounds (line 193). -/
def rawStepOf (minValue maxValue : ℚ) (count : ℕ) : ℚ :=
  (expandedMax minValue maxValue - expandedMin minValue maxValue) /
    ((max (count - 1) 1 : ℕ) : ℚ)

/-- `buildNiceYTicks` (src/unnamed/part_000 lines 182-204).  The
non-finite input guard of line 183 is vacuous over `ℚ`. -/
def buildNiceYTicks (minValue maxValue : ℚ) (count : ℕ := 6) : TickScale :=
  let step := getNiceStep (rawStepOf minValue maxValue count)
  let niceMin := (⌊expandedMin minValue maxValue / step⌋ : ℚ) * step
  let niceMax := (⌈expandedMax minValue maxValue / step⌉ : ℚ) * step
  ⟨niceMin, niceMax, (ticksFrom step (niceMax + step * (1 / 2)) niceMin).map toFixed10⟩

theorem getNiceStep_pos (rawStep : ℚ) : 0 < getNiceStep rawStep := by
  unfold getNiceStep
  split
  · norm_num
  · have h : (0 : ℚ) < (10 : ℚ) ^ (Int.log 10 rawStep) :=
      zpow_pos (by norm_num) _
    dsimp only
    split
    · exact h
    · split
      · positivity
      · split
        · positivity
        · positivity

theorem expandedMin_le (a b : ℚ) : expandedMin a b ≤ a := by
  unfold expandedMin
  split
  · split
    · linarith
    · have : (0 : ℚ) ≤ |a| * (2 / 10) := by positivity
      linarith
  · exact le_refl a

theorem le_expandedMax (a b : ℚ) : b ≤ expandedMax a b := by
  unfold expandedMax
  split
  · split
    · linarith
    · have : (0 : ℚ) ≤ |a| * (2 / 10) := by positivity
      linarith
  · exact le_refl b

theorem buildNiceYTicks_min_le (a b : ℚ) (c : ℕ) :
    (buildNiceYTicks a b c).min ≤ expandedMin a b := by
  have hs : 0 < getNiceStep (rawStepOf a b c) := getNiceStep_pos _
  show (⌊expandedMin a b / getNiceStep (rawStepOf a b c)⌋ : ℚ) *
      getNiceStep (rawStepOf a b c) ≤ expandedMin a b
  calc (⌊expandedMin a b / getNiceStep (rawStepOf a b c)⌋ : ℚ) *
      getNiceStep (rawStepOf a b c)
      ≤ expandedMin a b / getNiceStep (rawStepOf a b c) *
          getNiceStep (rawStepOf a b c) :=
        mul_le_mul_of_nonneg_right (Int.floor_le _) hs.le
    _ = expandedMin a b := div_mul_cancel₀ _ hs.ne'

theorem le_buildNiceYTicks_max (a b : ℚ) (c : ℕ) :
    expandedMax a b ≤ (buildNiceYTicks a b c).max := by
  have hs : 0 < getNiceStep (rawStepOf a b c) := getNiceStep_pos _
  show expandedMax a b ≤
      (⌈expandedMax a b / getNiceStep (rawStepOf a b c)⌉ : ℚ) *
        getNiceStep (rawStepOf a b c)
  calc expandedMax a b
      = expandedMax a b / getNiceStep (rawStepOf a b c) *
          getNiceStep (rawStepOf a b c) := (div_mul_cancel₀ _ hs.ne').symm
    _ ≤ (⌈expandedMax a b / getNiceStep (rawStepOf a b c)⌉ : ℚ) *
          getNiceStep (rawStepOf a b c) :=
        mul_le_mul_of_nonneg_right (Int.le_ceil _) hs.le

/-- The tick loop with positive step enumerates an arithmetic
progression: one tick per iteration index. -/
theorem ticksFrom_eq_range (step bound : ℚ) (hstep : 0 < step) :
    ∀ (n : ℕ) (value : ℚ), (⌊(bound - value) / step⌋ + 1).toNat = n →
      ticksFrom step bound value =
        (List.range n).map (fun i : ℕ => value + (i : ℚ) * step) := by
  intro n
  induction n with
  | zero =>
    intro value hn
    have h0 : ⌊(bound - value) / step⌋ + 1 ≤ 0 := by omega
    have hneg : (bound - value) / step < 0 := by
      by_contra hge
      have := Int.floor_nonneg.mpr (le_of_not_lt hge)
      omega
    have hvb : ¬ value ≤ bound := by
      intro hle
      have : (0 : ℚ) ≤ (bound - value) / step :=
        div_nonneg (by linarith) hstep.le
      linarith
    rw [ticksFrom]
    simp [hvb]
  | succ n ih =>
    intro value hn
    by_cases hvb : value ≤ bound
    · have hfl : ⌊(bound - (value + step)) / step⌋ =
          ⌊(bound - value) / step⌋ - 1 := by
        have h1 : (bound - (value + step)) / step = (bound - value) / step - 1 := by
          field_simp
          ring
        rw [h1, Int.floor_sub_one]
      have hpos : (0 : ℤ) ≤ ⌊(bound - value) / step⌋ :=
        Int.floor_nonneg.mpr (div_nonneg (by linarith) hstep.le)
      have hn' : (⌊(bound - (value + step)) / step⌋ + 1).toNat = n := by
        rw [hfl]; omega
      rw [ticksFrom]
      rw [dif_pos ⟨hstep, hvb⟩, ih (value + step) hn']
      rw [List.range_succ_eq_map, List.map_cons, List.map_map]
      congr 1
      · norm_num
      · apply List.map_congr_left
        intro i _
        simp only [Function.comp_apply]
        push_cast
        ring
    · exfalso
      have hneg : (bound - value) / step < 0 := by
        apply div_neg_of_neg_of_pos (by linarith [lt_of_not_le hvb]) hstep
      have hlt : ⌊(bound - value) / step⌋ < 0 :=
        Int.floor_lt.mpr (by exact_mod_cast hneg)
      omega

/-- `buildNiceYTicks`' ticks in closed form: an arithmetic progression
from `niceMin`, each entry rounded to 10 decimal digits. -/
theorem buildNiceYTicks_ticks_eq (a b : ℚ) (c : ℕ) :
    (buildNiceYTicks a b c).ticks =
      (List.range
          (⌊((⌈expandedMax a b / getNiceStep (rawStepOf a b c)⌉ : ℚ) *
                getNiceStep (rawStepOf a b c) +
                getNiceStep (rawStepOf a b c) * (1 / 2) -
              (⌊expandedMin a b / getNiceStep (rawStepOf a b c)⌋ : ℚ) *
                getNiceStep (rawStepOf a b c)) /
              getNiceStep (rawStepOf a b c)⌋ + 1).toNat).map
        (fun i : ℕ =>
          toFixed10 ((⌊expandedMin a b / getNiceStep (rawStepOf a b c)⌋ : ℚ) *
              getNiceStep (rawStepOf a b c) +
            (i : ℚ) * getNiceStep (rawStepOf a b c))) := by
  have hs : 0 < getNiceStep (rawStepOf a b c) := getNiceStep_pos _
  show ((ticksFrom _ _ _).map toFixed10) = _
  rw [ticksFrom_eq_range _ _ hs _ _ rfl, List.map_map]
  rfl

theorem toFixed10_eq_self {q : ℚ} (h : ∃ z : ℤ, q * 10 ^ 10 = (z : ℚ)) :
    toFixed10 q = q := by
  obtain ⟨z, hz⟩ := h
  unfold toFixed10
  rw [hz, round_intCast, ← hz]
  exact mul_div_cancel_right₀ q (by norm_num)

/-- The snapped step is one of `{1,2,5,10}` times the decimal magnitude
of the raw step. -/
theorem getNiceStep_shape (r : ℚ) (hr : 0 < r) :
    ∃ k : ℚ, (k = 1 ∨ k = 2 ∨ k = 5 ∨ k = 10) ∧
      getNiceStep r = k * (10 : ℚ) ^ (Int.log 10 r) := by
  unfold getNiceStep
  rw [if_neg (not_le.mpr hr)]
  dsimp only
  split
  · exact ⟨1, Or.inl rfl, by ring⟩
  · split
    · exact ⟨2, Or.inr (Or.inl rfl), rfl⟩
    · split
      · exact ⟨5, Or.inr (Or.inr (Or.inl rfl)), rfl⟩
      · exact ⟨10, Or.inr (Or.inr (Or.inr rfl)), rfl⟩

theorem nice_factor_int {k : ℚ} (hk : k = 1 ∨ k = 2 ∨ k = 5 ∨ k = 10) :
    ∃ kz : ℤ, k = (kz : ℚ) := by
  rcases hk with h | h | h | h
  · exact ⟨1, by rw [h]; norm_num⟩
  · exact ⟨2, by rw [h]; norm_num⟩
  · exact ⟨5, by rw [h]; norm_num⟩
  · exact ⟨10, by rw [h]; norm_num⟩

/-- A step of shape `k * 10^n` with `n ≥ -10` times `10^10` is an
integer, so `toFixed10` is exact on its integer multiples. -/
theorem step_mul_pow_int {k : ℚ} (hk : k = 1 ∨ k = 2 ∨ k = 5 ∨ k = 10)
    {n : ℤ} (hn : -10 ≤ n) :
    ∃ z : ℤ, k * (10 : ℚ) ^ n * 10 ^ 10 = (z : ℚ) := by
  obtain ⟨kz, hkz⟩ := nice_factor_int hk
  have h1 : (10 : ℚ) ^ n * 10 ^ 10 = (10 : ℚ) ^ (n + 10) := by
    rw [show ((10 : ℚ) ^ 10 : ℚ) = (10 : ℚ) ^ ((10 : ℕ) : ℤ) by
      rw [zpow_natCast], ← zpow_add₀ (by norm_num : (10 : ℚ) ≠ 0)]
    norm_num
  have hpos : 0 ≤ n + 10 := by omega
  have h2 : (10 : ℚ) ^ (n + 10) = (((10 : ℤ) ^ (n + 10).toNat : ℤ) : ℚ) := by
    rw [← Int.toNat_of_nonneg hpos, zpow_natCast]
    push_cast
    rw [Int.toNat_of_nonneg hpos]
  refine ⟨kz * 10 ^ (n + 10).toNat, ?_⟩
  rw [hkz, mul_assoc, h1, h2]
  push_cast
  ring

theorem one_div_pow_eq_zpow : (1 : ℚ) / 10 ^ 10 = (10 : ℚ) ^ (-10 : ℤ) := by
  rw [zpow_neg, show ((10 : ℤ)) = ((10 : ℕ) : ℤ) by norm_num, zpow_natCast,
    one_div]

theorem log_ten_ge {r : ℚ} (h : 1 / 10 ^ 10 ≤ r) : -10 ≤ Int.log 10 r := by
  have h0 : (0 : ℚ) < 1 / 10 ^ 10 := by norm_num
  have hmono := Int.log_mono_right (b := 10) h0 h
  rw [one_div_pow_eq_zpow] at hmono
  rw [show ((10 : ℚ)) = ((10 : ℕ) : ℚ) by norm_num, Int.log_zpow
    (by norm_num : 1 < 10)] at hmono
  exact hmono

theorem tick_int {S : ℚ} {z : ℤ} (hz : S * 10 ^ 10 = (z : ℚ)) (m : ℤ) (i : ℕ) :
    ∃ z' : ℤ, ((m : ℚ) * S + (i : ℚ) * S) * 10 ^ 10 = ((z' : ℤ) : ℚ) := by
  refine ⟨(m + (i : ℤ)) * z, ?_⟩
  have h : ((m : ℚ) * S + (i : ℚ) * S) * 10 ^ 10 =
      ((m : ℚ) + (i : ℚ)) * (S * 10 ^ 10) := by ring
  rw [h, hz]
  push_cast
  ring

/-- C1 (amended): for `minValue < maxValue`, provided the raw step
`(maxValue - minValue) / 5` is at least `10^-10` (so that rounding
ticks to 10 decimal digits is exact), `buildNiceYTicks` returns
`min ≤ minValue`, `max ≥ maxValue`, its ticks are evenly spaced by one
common step, and that step is `k * 10^n` for `k ∈ {1,2,5,10}`, `n : ℤ`. -/
theorem spec_c1 (minValue maxValue : ℚ) (hlt : minValue < maxValue)
    (hstep : 1 / 10 ^ 10 ≤ rawStepOf minValue maxValue 6) :
    (buildNiceYTicks minValue maxValue 6).min ≤ minValue ∧
    maxValue ≤ (buildNiceYTicks minValue maxValue 6).max ∧
    ∃ s : ℚ,
      (∀ i : ℕ, i + 1 < (buildNiceYTicks minValue maxValue 6).ticks.length →
        (buildNiceYTicks minValue maxValue 6).ticks.getD (i + 1) 0 -
          (buildNiceYTicks minValue maxValue 6).ticks.getD i 0 = s) ∧
      ∃ (k : ℚ) (n : ℤ), (k = 1 ∨ k = 2 ∨ k = 5 ∨ k = 10) ∧
        s = k * (10 : ℚ) ^ n := by
  have hne : minValue ≠ maxValue := ne_of_lt hlt
  have hr : 0 < rawStepOf minValue maxValue 6 :=
    lt_of_lt_of_le (by norm_num) hstep
  obtain ⟨k, hk, hS⟩ := getNiceStep_shape _ hr
  have hn : -10 ≤ Int.log 10 (rawStepOf minValue maxValue 6) :=
    log_ten_ge hstep
  obtain ⟨z, hz⟩ : ∃ z : ℤ,
      getNiceStep (rawStepOf minValue maxValue 6) * 10 ^ 10 = (z : ℚ) := by
    rw [hS]
    exact step_mul_pow_int hk hn
  refine ⟨?_, ?_, getNiceStep (rawStepOf minValue maxValue 6), ?_, k, _, hk, hS⟩
  · have h := buildNiceYTicks_min_le minValue maxValue 6
    rwa [expandedMin, if_neg hne] at h
  · have h := le_buildNiceYTicks_max minValue maxValue 6
    rwa [expandedMax, if_neg hne] at h
  · intro i hi
    rw [buildNiceYTicks_ticks_eq] at hi ⊢
    simp only [List.length_map, List.length_range] at hi
    rw [List.getD_eq_getElem _ _ (by
        simpa only [List.length_map, List.length_range] using hi),
      List.getD_eq_getElem _ _ (by
        simp only [List.length_map, List.length_range]
        omega)]
    simp only [List.getElem_map, List.getElem_range]
    rw [toFixed10_eq_self (by
        have h2 := tick_int hz
          ⌊expandedMin minValue maxValue /
            getNiceStep (rawStepOf minValue maxValue 6)⌋ (i + 1)
        push_cast at h2 ⊢
        exact h2),
      toFixed10_eq_self (by
        have h2 := tick_int hz
          ⌊expandedMin minValue maxValue /
            getNiceStep (rawStepOf minValue maxValue 6)⌋ i
        push_cast at h2 ⊢
        exact h2)]
    push_cast
    ring

/-- Witness for `spec_c1` at `(0, 10)`. -/
theorem spec_c1_witness :
    (buildNiceYTicks 0 10 6).min ≤ 0 ∧
    (10 : ℚ) ≤ (buildNiceYTicks 0 10 6).max ∧
    ∃ s : ℚ,
      (∀ i : ℕ, i + 1 < (buildNiceYTicks 0 10 6).ticks.length →
        (buildNiceYTicks 0 10 6).ticks.getD (i + 1) 0 -
          (buildNiceYTicks 0 10 6).ticks.getD i 0 = s) ∧
      ∃ (k : ℚ) (n : ℤ), (k = 1 ∨ k = 2 ∨ k = 5 ∨ k = 10) ∧
        s = k * (10 : ℚ) ^ n :=
  spec_c1 0 10 (by norm_num)
    (by rw [rawStepOf, expandedMax, expandedMin]; norm_num)

theorem zpow_neg_ten (m : ℕ) : (10 : ℚ) ^ (-(m : ℤ)) = 1 / 10 ^ m := by
  rw [zpow_neg, zpow_natCast, one_div]

theorem c1_cx_rawStep : rawStepOf 0 (5 / 10 ^ 12) 6 = 1 / 10 ^ 12 := by
  rw [rawStepOf, expandedMax, expandedMin]
  rw [if_neg (by norm_num : ¬ (0 : ℚ) = 5 / 10 ^ 12),
    if_neg (by norm_num : ¬ (0 : ℚ) = 5 / 10 ^ 12)]
  norm_num

theorem c1_cx_step : getNiceStep (rawStepOf 0 (5 / 10 ^ 12) 6) = 1 / 10 ^ 12 := by
  rw [c1_cx_rawStep]
  have hlog : Int.log 10 ((1 : ℚ) / 10 ^ 12) = -12 := by
    have h : (1 : ℚ) / 10 ^ 12 = ((10 : ℕ) : ℚ) ^ (-12 : ℤ) := by
      rw [show ((10 : ℕ) : ℚ) = (10 : ℚ) by norm_num,
        show (-12 : ℤ) = -((12 : ℕ) : ℤ) by norm_num, zpow_neg_ten]
    rw [h, Int.log_zpow (by norm_num : 1 < 10)]
  unfold getNiceStep
  rw [if_neg (by norm_num)]
  dsimp only
  rw [hlog, show (-12 : ℤ) = -((12 : ℕ) : ℤ) by norm_num, zpow_neg_ten]
  rw [if_pos (by norm_num)]

theorem c1_cx_ticks :
    (buildNiceYTicks 0 (5 / 10 ^ 12) 6).ticks = [0, 0, 0, 0, 0, 0] := by
  rw [buildNiceYTicks_ticks_eq, c1_cx_step]
  rw [expandedMin, if_neg (by norm_num : ¬ (0 : ℚ) = 5 / 10 ^ 12)]
  rw [expandedMax, if_neg (by norm_num : ¬ (0 : ℚ) = 5 / 10 ^ 12)]
  have h5 : (5 / 10 ^ 12 : ℚ) / (1 / 10 ^ 12) = 5 := by norm_num
  rw [h5]
  have hfl : ⌊(0 : ℚ) / (1 / 10 ^ 12)⌋ = 0 := by norm_num
  rw [hfl]
  have hcl : ⌈(5 : ℚ)⌉ = 5 := by norm_num
  rw [hcl]
  have harg : (((5 : ℤ) : ℚ) * (1 / 10 ^ 12) + 1 / 10 ^ 12 * (1 / 2) -
      ((0 : ℤ) : ℚ) * (1 / 10 ^ 12)) / (1 / 10 ^ 12) = 11 / 2 := by
    norm_num
  rw [harg, show ⌊(11 / 2 : ℚ)⌋ = 5 by norm_num,
    show ((5 : ℤ) + 1).toNat = 6 by decide]
  simp only [List.range_succ, List.range_zero, List.map_append, List.map_cons,
    List.map_nil, List.nil_append, List.cons_append]
  norm_num [toFixed10, round_eq]

/-- C1 (counterexample): at `minValue = 0`, `maxValue = 5 * 10^-12` the
snapped step is `10^-12`, every tick rounds to `0` under the 10-decimal
rounding of line 200, and the all-zero tick list is not spaced by any
step of the form `k * 10^n`, `k ∈ {1,2,5,10}`. -/
theorem spec_c1_counterexample :
    ¬ ((buildNiceYTicks 0 (5 / 10 ^ 12) 6).min ≤ 0 ∧
      (5 / 10 ^ 12 : ℚ) ≤ (buildNiceYTicks 0 (5 / 10 ^ 12) 6).max ∧
      ∃ s : ℚ,
        (∀ i : ℕ, i + 1 < (buildNiceYTicks 0 (5 / 10 ^ 12) 6).ticks.length →
          (buildNiceYTicks 0 (5 / 10 ^ 12) 6).ticks.getD (i + 1) 0 -
            (buildNiceYTicks 0 (5 / 10 ^ 12) 6).ticks.getD i 0 = s) ∧
        ∃ (k : ℚ) (n : ℤ), (k = 1 ∨ k = 2 ∨ k = 5 ∨ k = 10) ∧
          s = k * (10 : ℚ) ^ n) := by
  rintro ⟨-, -, s, hsp, k, n, hk, hs⟩
  have h0 : s = 0 := by
    have h := hsp 0 (by rw [c1_cx_ticks]; norm_num)
    rw [c1_cx_ticks] at h
    simp only [List.getD_cons_succ, List.getD_cons_zero, sub_zero] at h
    exact h.symm
  have hkpos : 0 < k := by
    rcases hk with h | h | h | h <;> rw [h] <;> norm_num
  have hpow : (0 : ℚ) < (10 : ℚ) ^ n := zpow_pos (by norm_num) n
  rw [h0] at hs
  nlinarith [mul_pos hkpos hpow]

theorem c8_emin : expandedMin 5 5 = 4 := by
  rw [expandedMin, if_pos rfl, if_neg (by norm_num : ¬ (5 : ℚ) = 0)]
  norm_num

theorem c8_emax : expandedMax 5 5 = 6 := by
  rw [expandedMax, if_pos rfl, if_neg (by norm_num : ¬ (5 : ℚ) = 0)]
  norm_num

theorem c8_rawStep : rawStepOf 5 5 6 = 2 / 5 := by
  rw [rawStepOf, c8_emin, c8_emax]
  norm_num

theorem c8_log : Int.log 10 ((2 : ℚ) / 5) = -1 := by
  have hb : (1 : ℕ) < 10 := by norm_num
  have hr : (0 : ℚ) < 2 / 5 := by norm_num
  have hup : Int.log 10 ((2 : ℚ) / 5) < 0 := by
    rw [← Int.lt_zpow_iff_log_lt hb hr]
    norm_num
  have hlo : -1 ≤ Int.log 10 ((2 : ℚ) / 5) := by
    rw [← Int.zpow_le_iff_le_log hb hr]
    rw [show ((10 : ℕ) : ℚ) = (10 : ℚ) by norm_num,
      show (-1 : ℤ) = -((1 : ℕ) : ℤ) by norm_num, zpow_neg_ten]
    norm_num
  omega

theorem c8_step : getNiceStep (rawStepOf 5 5 6) = 1 / 2 := by
  rw [c8_rawStep]
  unfold getNiceStep
  rw [if_neg (by norm_num)]
  dsimp only
  rw [c8_log, show (-1 : ℤ) = -((1 : ℕ) : ℤ) by norm_num, zpow_neg_ten]
  rw [if_neg (by norm_num), if_neg (by norm_num), if_pos (by norm_num)]
  norm_num

theorem c8_min : (buildNiceYTicks 5 5 6).min = 4 := by
  show (⌊expandedMin 5 5 / getNiceStep (rawStepOf 5 5 6)⌋ : ℚ) *
      getNiceStep (rawStepOf 5 5 6) = 4
  rw [c8_step, c8_emin, show ⌊(4 : ℚ) / (1 / 2)⌋ = 8 by norm_num]
  norm_num

theorem c8_max : (buildNiceYTicks 5 5 6).max = 6 := by
  show (⌈expandedMax 5 5 / getNiceStep (rawStepOf 5 5 6)⌉ : ℚ) *
      getNiceStep (rawStepOf 5 5 6) = 6
  rw [c8_step, c8_emax, show ⌈(6 : ℚ) / (1 / 2)⌉ = 12 by norm_num]
  norm_num

theorem c8_ticks :
    (buildNiceYTicks 5 5 6).ticks = [4, 9 / 2, 5, 11 / 2, 6] := by
  rw [buildNiceYTicks_ticks_eq, c8_step, c8_emin, c8_emax]
  rw [show ⌊(4 : ℚ) / (1 / 2)⌋ = 8 by norm_num,
    show ⌈(6 : ℚ) / (1 / 2)⌉ = 12 by norm_num]
  have harg : (((12 : ℤ) : ℚ) * (1 / 2) + 1 / 2 * (1 / 2) -
      ((8 : ℤ) : ℚ) * (1 / 2)) / (1 / 2) = 9 / 2 := by
    norm_num
  rw [harg, show ⌊(9 / 2 : ℚ)⌋ = 4 by norm_num,
    show ((4 : ℤ) + 1).toNat = 5 by decide]
  simp only [List.range_succ, List.range_zero, List.map_append, List.map_cons,
    List.map_nil, List.nil_append, List.cons_append]
  norm_num [toFixed10, round_eq]

/-- C8: when `minValue == maxValue` the range is expanded symmetrically
by `delta = |minValue| * 0.2` (or `1` when `minValue = 0`) before ticks
are computed; concretely, `buildNiceYTicks 5 5` strictly contains `5`
and has more than one tick. -/
theorem spec_c8 :
    (∀ v : ℚ,
      (buildNiceYTicks v v 6).min ≤
          v - (if v = 0 then 1 else |v| * (2 / 10)) ∧
        v + (if v = 0 then 1 else |v| * (2 / 10)) ≤
          (buildNiceYTicks v v 6).max) ∧
    (buildNiceYTicks 5 5 6).min < 5 ∧
    (5 : ℚ) < (buildNiceYTicks 5 5 6).max ∧
    1 < (buildNiceYTicks 5 5 6).ticks.length := by
  refine ⟨fun v => ⟨?_, ?_⟩, ?_, ?_, ?_⟩
  · have h := buildNiceYTicks_min_le v v 6
    rwa [expandedMin, if_pos rfl] at h
  · have h := le_buildNiceYTicks_max v v 6
    rwa [expandedMax, if_pos rfl] at h
  · rw [c8_min]; norm_num
  · rw [c8_max]; norm_num
  · rw [c8_ticks]; norm_num

/-- `EmulatedPerSecondStat` (src/unnamed/part_000 lines 20-30).  Numeric
fields arrive from the loader as finite numbers or `null` (`page.tsx`
`toNumber`), modelled as `Option`. -/
structure EmulatedPerSecondStat where
  id : ℤ
  emulatedRunId : ℤ
  snapshotIndex : Option ℤ
  elapsedSeconds : Option ℚ
  megabitsPerSecond : Option ℚ
  roundTripTimeMs : Option ℚ
  bottleneckQueuingDelayMs : Option ℚ
  inFlightPackets : Option ℤ
  congestionWindowBytes : Option ℚ
  deriving DecidableEq, Repr, Inhabited

/-- `ChartSeries` (lines 39-46); the DOM-only `label` string is kept. -/
structure ChartSeries where
  runId : ℤ
  shortLabel : String
  label : String
  clientSummary : String
  color : String
  data : List EmulatedPerSecondStat
  deriving DecidableEq, Repr, Inhabited

/-- A normalized `{xValue, yValue}` pair (line 639-642). -/
structure NormalizedPoint where
  xValue : ℚ
  yValue : ℚ
  deriving DecidableEq, Repr, Inhabited

/-- A series after normalization (line 646-649): the original series
fields with its valid point list. -/
structure NormalizedSeries where
  runId : ℤ
  shortLabel : String
  label : String
  clientSummary : String
  color : String
  points : List NormalizedPoint
  deriving DecidableEq, Repr, Inhabited

/-- The per-point body of `normalizedSeries`' inner `.map` (lines
633-643): `xValue = elapsedSeconds ?? snapshotIndex ?? index`,
`yValue = accessor(point)`, `null` when either fails `Number.isFinite`.
Over `ℚ` the `xValue` branch of that guard is vacuous (any present
number is finite) and the `yValue` branch is `Option.none`. -/
def normalizeEntry (accessor : EmulatedPerSecondStat → Option ℚ) (index : ℕ)
    (point : EmulatedPerSecondStat) : Option NormalizedPoint :=
  let xValue : ℚ :=
    point.elapsedSeconds.getD
      ((point.snapshotIndex.map (fun n : ℤ => (n : ℚ))).getD (index : ℚ))
  match accessor point with
  | none => none
  | some yValue => some ⟨xValue, yValue⟩

/-- The point list of one run in `normalizedSeries` (lines 632-644):
map with index, then drop the `null`s. -/
def normalizePoints (accessor : EmulatedPerSecondStat → Option ℚ)
    (data : List EmulatedPerSecondStat) : List NormalizedPoint :=
  (data.mapIdx (normalizeEntry accessor)).reduceOption

/-- `normalizedSeries` (lines 630-651): normalize every series, keep
those with at least one valid point. -/
def normalizedSeries (accessor : EmulatedPerSecondStat → Option ℚ)
    (series : List ChartSeries) : List NormalizedSeries :=
  (series.map (fun runSeries =>
      NormalizedSeries.mk runSeries.runId runSeries.shortLabel runSeries.label
        runSeries.clientSummary runSeries.color
        (normalizePoints accessor runSeries.data))).filter
    (fun runSeries => decide (0 < runSeries.points.length))

/-- Follows the spec's words for the Series Normalizer x-source:
"x = elapsedSeconds if non-null, else snapshotIndex if non-null, else
the point's array index". -/
def specPointX (index : ℕ) (point : EmulatedPerSecondStat) : ℚ :=
  match point.elapsedSeconds with
  | some e => e
  | none =>
    match point.snapshotIndex with
    | some n => (n : ℚ)
    | none => (index : ℚ)

/-- Follows the spec's words for the Series Normalizer point rule:
`y = accessor(point)`, and the pair is dropped when the value is
non-finite (`null`). -/
def specNormalizePointsAux (accessor : EmulatedPerSecondStat → Option ℚ)
    (index : ℕ) : List EmulatedPerSecondStat → List NormalizedPoint
  | [] => []
  | point :: rest =>
    match accessor point with
    | some y =>
        ⟨specPointX index point, y⟩ ::
          specNormalizePointsAux accessor (index + 1) rest
    | none => specNormalizePointsAux accessor (index + 1) rest

/-- Follows the spec's words for the Series Normalizer output: one
point list per run, runs with zero valid points excluded entirely. -/
def specNormalizedSeries (accessor : EmulatedPerSecondStat → Option ℚ) :
    List ChartSeries → List NormalizedSeries
  | [] => []
  | s :: rest =>
    if specNormalizePointsAux accessor 0 s.data = [] then
      specNormalizedSeries accessor rest
    else
      NormalizedSeries.mk s.runId s.shortLabel s.label s.clientSummary s.color
          (specNormalizePointsAux accessor 0 s.data) ::
        specNormalizedSeries accessor rest

theorem normalizeEntry_eq (accessor : EmulatedPerSecondStat → Option ℚ)
    (index : ℕ) (point : EmulatedPerSecondStat) :
    normalizeEntry accessor index point =
      (accessor point).map (fun y => ⟨specPointX index point, y⟩) := by
  unfold normalizeEntry specPointX
  rcases accessor point with _ | y
  · rcases point.elapsedSeconds with _ | e <;>
      rcases point.snapshotIndex with _ | n <;> rfl
  · rcases point.elapsedSeconds with _ | e <;>
      rcases point.snapshotIndex with _ | n <;> rfl

theorem normalizePoints_eq_aux (accessor : EmulatedPerSecondStat → Option ℚ) :
    ∀ (data : List EmulatedPerSecondStat) (j : ℕ),
      ((data.mapIdx (fun i p => normalizeEntry accessor (j + i) p)).reduceOption) =
        specNormalizePointsAux accessor j data := by
  intro data
  induction data with
  | nil => intro j; rfl
  | cons point rest ih =>
    intro j
    rw [List.mapIdx_cons]
    have hlam : (fun i p => normalizeEntry accessor (j + (i + 1)) p) =
        (fun i p => normalizeEntry accessor ((j + 1) + i) p) := by
      funext i p
      congr 1
      omega
    rw [show specNormalizePointsAux accessor j (point :: rest) =
        (match accessor point with
          | some y => NormalizedPoint.mk (specPointX j point) y ::
              specNormalizePointsAux accessor (j + 1) rest
          | none => specNormalizePointsAux accessor (j + 1) rest) from rfl]
    rw [normalizeEntry_eq]
    rcases accessor point with _ | y
    · simp only [Option.map_none', List.reduceOption_cons_of_none]
      rw [hlam, ih (j + 1)]
    · simp only [Option.map_some', List.reduceOption_cons_of_some]
      rw [hlam, ih (j + 1)]
      simp only [Nat.add_zero]

theorem normalizePoints_eq (accessor : EmulatedPerSecondStat → Option ℚ)
    (data : List EmulatedPerSecondStat) :
    normalizePoints accessor data = specNormalizePointsAux accessor 0 data := by
  unfold normalizePoints
  rw [show data.mapIdx (normalizeEntry accessor) =
      data.mapIdx (fun i p => normalizeEntry accessor (0 + i) p) by
    simp only [Nat.zero_add]]
  exact normalizePoints_eq_aux accessor data 0

/-- C2: the Series Normalizer realizes the spec's point rule exactly:
`x = elapsedSeconds ?? snapshotIndex ?? arrayIndex`, `y = accessor`,
pairs with a non-finite (`null`) value dropped, runs with an empty
result excluded from the rendered series set. -/
theorem spec_c2 (accessor : EmulatedPerSecondStat → Option ℚ)
    (series : List ChartSeries) :
    normalizedSeries accessor series = specNormalizedSeries accessor series := by
  induction series with
  | nil => rfl
  | cons s rest ih =>
    unfold normalizedSeries at ih ⊢
    rw [List.map_cons, List.filter_cons]
    rw [show specNormalizedSeries accessor (s :: rest) =
        (if specNormalizePointsAux accessor 0 s.data = [] then
          specNormalizedSeries accessor rest
        else
          NormalizedSeries.mk s.runId s.shortLabel s.label s.clientSummary
              s.color (specNormalizePointsAux accessor 0 s.data) ::
            specNormalizedSeries accessor rest) from rfl]
    by_cases hkeep : specNormalizePointsAux accessor 0 s.data = []
    · rw [if_pos hkeep]
      rw [if_neg (by simp [normalizePoints_eq, hkeep])]
      exact ih
    · rw [if_neg hkeep]
      rw [if_pos (by simp [normalizePoints_eq, List.length_pos, hkeep])]
      rw [ih, normalizePoints_eq]

/-- The chart geometry constants of `MetricChart` (lines 592-600). -/
structure Geometry where
  chartWidth : ℚ
  chartHeight : ℚ
  leftPadding : ℚ
  rightPadding : ℚ
  topPadding : ℚ
  bottomPadding : ℚ
  deriving DecidableEq, Repr

/-- The two geometry presets, selected by `size === "expanded"`. -/
def geometry (isExpanded : Bool) : Geometry :=
  if isExpanded then ⟨1200, 620, 78, 28, 26, 94⟩
  else ⟨460, 220, 56, 18, 18, 52⟩

/-- `plotWidth = chartWidth - leftPadding - rightPadding` (line 599). -/
def Geometry.plotWidth (g : Geometry) : ℚ :=
  g.chartWidth - g.leftPadding - g.rightPadding

/-- `plotHeight = chartHeight - topPadding - bottomPadding` (line 600). -/
def Geometry.plotHeight (g : Geometry) : ℚ :=
  g.chartHeight - g.topPadding - g.bottomPadding

def THROUGHPUT_AXIS_MAX_MBPS : ℚ := 120

def THROUGHPUT_AXIS_TICK_STEP_MBPS : ℚ := 40

def THROUGHPUT_SUM_SERIES_ID : ℤ := -1

/-- `Math.min` over a spread array; the `[]` case is unreachable in the
chart (`normalizedSeries.length === 0` returns early, and every kept
series has at least one point). -/
def listMin : List ℚ → ℚ
  | [] => 0
  | q :: rest => rest.foldl min q

/-- `Math.max` over a spread array; `[]` unreachable as for `listMin`. -/
def listMax : List ℚ → ℚ
  | [] => 0
  | q :: rest => rest.foldl max q

/-- All x values of the kept series (lines 680-682). -/
def xValuesOf (nss : List NormalizedSeries) : List ℚ :=
  nss.flatMap (fun runSeries => runSeries.points.map (fun p => p.xValue))

/-- All y values of the kept series (lines 683-685). -/
def yValuesOf (nss : List NormalizedSeries) : List ℚ :=
  nss.flatMap (fun runSeries => runSeries.points.map (fun p => p.yValue))

/-- `xMax = Math.max(...xValues, 0)` (line 688). -/
def xMaxOf (nss : List NormalizedSeries) : ℚ :=
  (xValuesOf nss).foldl max 0

/-- The y scale of a chart (lines 689-708): fixed `[0,120]` stepped by
`40` for throughput (`120 / 40 + 1 = 4` ticks), otherwise the Scale
Builder on `[0, max(yMaxRaw + yPadding, 0.001)]`. -/
def yScaleOf (metricId : String) (nss : List NormalizedSeries) : TickScale :=
  if metricId = "mbps" then
    ⟨0, THROUGHPUT_AXIS_MAX_MBPS,
      (List.range 4).map (fun i : ℕ => (i : ℚ) * THROUGHPUT_AXIS_TICK_STEP_MBPS)⟩
  else
    buildNiceYTicks 0
      (max (listMax (yValuesOf nss) +
          max ((listMax (yValuesOf nss) - listMin (yValuesOf nss)) * (12 / 100))
            (1 / 1000))
        (1 / 1000)) 6

/-- A projected point of `seriesForRender` (lines 722-734): the domain
values together with the SVG pixel position. -/
structure ProjectedPoint where
  xValue : ℚ
  yValue : ℚ
  x : ℚ
  y : ℚ
  deriving DecidableEq, Repr, Inhabited

/-- The body of the `svgPoints` map (lines 722-734): clamp the domain
value into the axis range and interpolate linearly into the plot area.
The denominators are `1` when the range is degenerate (lines 718-719). -/
def projectPoint (g : Geometry) (xMin xMax yMin yMax : ℚ)
    (point : NormalizedPoint) : ProjectedPoint :=
  let xDenominator := if xMax = xMin then 1 else xMax - xMin
  let yDenominator := if yMax = yMin then 1 else yMax - yMin
  let boundedXValue := max xMin (min xMax point.xValue)
  let boundedYValue := max yMin (min yMax point.yValue)
  { xValue := point.xValue
    yValue := point.yValue
    x := g.leftPadding + (boundedXValue - xMin) / xDenominator * g.plotWidth
    y := g.chartHeight - g.bottomPadding -
      (boundedYValue - yMin) / yDenominator * g.plotHeight }

/-- A series ready for rendering; the SVG `path` string built from
`svgPoints` (lines 736-738) is presentational and not modelled. -/
structure RenderSeries where
  runId : ℤ
  shortLabel : String
  label : String
  clientSummary : String
  color : String
  svgPoints : List ProjectedPoint
  deriving DecidableEq, Repr, Inhabited

/-- `seriesForRender` (lines 721-745). -/
def seriesForRender (g : Geometry) (xMin xMax yMin yMax : ℚ)
    (nss : List NormalizedSeries) : List RenderSeries :=
  nss.map (fun runSeries =>
    { runId := runSeries.runId
      shortLabel := runSeries.shortLabel
      label := runSeries.label
      clientSummary := runSeries.clientSummary
      color := runSeries.color
      svgPoints := runSeries.points.map (projectPoint g xMin xMax yMin yMax) })

/-- The full per-chart pipeline from raw series to rendered series:
normalization (lines 630-651), domain ranges (lines 687-708), and
projection (lines 721-745), with `xMin = 0` (line 687). -/
def chartRender (isExpanded : Bool) (metricId : String)
    (accessor : EmulatedPerSecondStat → Option ℚ)
    (series : List ChartSeries) : List RenderSeries :=
  seriesForRender (geometry isExpanded) 0
    (xMaxOf (normalizedSeries accessor series))
    (yScaleOf metricId (normalizedSeries accessor series)).min
    (yScaleOf metricId (normalizedSeries accessor series)).max
    (normalizedSeries accessor series)

theorem yScaleOf_mbps (nss : List NormalizedSeries) :
    yScaleOf "mbps" nss = ⟨0, 120, [0, 40, 80, 120]⟩ := by
  unfold yScaleOf
  rw [if_pos rfl]
  simp only [THROUGHPUT_AXIS_MAX_MBPS, THROUGHPUT_AXIS_TICK_STEP_MBPS]
  norm_num [List.range_succ]

/-- C7: the throughput y-axis is not derived from the data: for every
normalized input the scale is the fixed range `[0, 120]` with ticks
`[0, 40, 80, 120]`, bypassing `buildNiceYTicks` entirely. -/
theorem spec_c7 (nss : List NormalizedSeries) :
    yScaleOf "mbps" nss = ⟨0, 120, [0, 40, 80, 120]⟩ :=
  yScaleOf_mbps nss

theorem le_foldl_max (l : List ℚ) : ∀ init : ℚ, init ≤ l.foldl max init := by
  induction l with
  | nil => intro init; exact le_refl _
  | cons q rest ih =>
    intro init
    exact le_trans (le_max_left init q) (ih (max init q))

theorem mem_le_foldl_max (l : List ℚ) :
    ∀ (init : ℚ) (v : ℚ), v ∈ l → v ≤ l.foldl max init := by
  induction l with
  | nil => intro _ v hv; cases hv
  | cons q rest ih =>
    intro init v hv
    rcases List.mem_cons.mp hv with h | h
    · subst h
      exact le_trans (le_max_right init v) (le_foldl_max rest _)
    · exact ih (max init q) v h

theorem xMaxOf_nonneg (nss : List NormalizedSeries) : 0 ≤ xMaxOf nss :=
  le_foldl_max _ 0

theorem le_xMaxOf (nss : List NormalizedSeries) (v : ℚ)
    (hv : v ∈ xValuesOf nss) : v ≤ xMaxOf nss :=
  mem_le_foldl_max _ 0 v hv

theorem yScaleOf_min_le_zero (metricId : String) (nss : List NormalizedSeries) :
    (yScaleOf metricId nss).min ≤ 0 := by
  unfold yScaleOf
  split
  · norm_num
  · have h := buildNiceYTicks_min_le 0
      (max (listMax (yValuesOf nss) +
        max ((listMax (yValuesOf nss) - listMin (yValuesOf nss)) * (12 / 100))
          (1 / 1000)) (1 / 1000)) 6
    have hne : (0 : ℚ) ≠
        max (listMax (yValuesOf nss) +
          max ((listMax (yValuesOf nss) - listMin (yValuesOf nss)) * (12 / 100))
            (1 / 1000)) (1 / 1000) := by
      intro heq
      have h1 : (1 / 1000 : ℚ) ≤
          max (listMax (yValuesOf nss) +
            max ((listMax (yValuesOf nss) - listMin (yValuesOf nss)) * (12 / 100))
              (1 / 1000)) (1 / 1000) := le_max_right _ _
      rw [← heq] at h1
      norm_num at h1
    rwa [expandedMin, if_neg hne] at h

theorem yScaleOf_zero_lt_max (metricId : String) (nss : List NormalizedSeries) :
    0 < (yScaleOf metricId nss).max := by
  unfold yScaleOf
  split
  · rw [THROUGHPUT_AXIS_MAX_MBPS]; norm_num
  · have h := le_buildNiceYTicks_max 0
      (max (listMax (yValuesOf nss) +
        max ((listMax (yValuesOf nss) - listMin (yValuesOf nss)) * (12 / 100))
          (1 / 1000)) (1 / 1000)) 6
    have hge : (1 / 1000 : ℚ) ≤
        expandedMax 0
          (max (listMax (yValuesOf nss) +
            max ((listMax (yValuesOf nss) - listMin (yValuesOf nss)) * (12 / 100))
              (1 / 1000)) (1 / 1000)) :=
      le_trans (le_max_right _ _) (le_expandedMax _ _)
    calc (0 : ℚ) < 1 / 1000 := by norm_num
      _ ≤ _ := le_trans hge h

theorem geometry_plotWidth_nonneg (e : Bool) : 0 ≤ (geometry e).plotWidth := by
  cases e <;> norm_num [geometry, Geometry.plotWidth]

theorem geometry_plotHeight_nonneg (e : Bool) : 0 ≤ (geometry e).plotHeight := by
  cases e <;> norm_num [geometry, Geometry.plotHeight]

theorem projectPoint_xValue (g : Geometry) (xMin xMax yMin yMax : ℚ)
    (p : NormalizedPoint) :
    (projectPoint g xMin xMax yMin yMax p).xValue = p.xValue := rfl

theorem projectPoint_yValue (g : Geometry) (xMin xMax yMin yMax : ℚ)
    (p : NormalizedPoint) :
    (projectPoint g xMin xMax yMin yMax p).yValue = p.yValue := rfl

/-- The horizontal interpolation factor lies in `[0, 1]`. -/
theorem bounded_ratio_mem (lo hi v : ℚ) (h : lo ≤ hi) :
    0 ≤ (max lo (min hi v) - lo) / (if hi = lo then 1 else hi - lo) ∧
      (max lo (min hi v) - lo) / (if hi = lo then 1 else hi - lo) ≤ 1 := by
  by_cases heq : hi = lo
  · subst heq
    have hb1 : max hi (min hi v) = hi := by
      rw [max_eq_left (min_le_left _ _)]
    rw [if_pos rfl, hb1]
    norm_num
  · have hlt : lo < hi := lt_of_le_of_ne h (fun hc => heq hc.symm)
    rw [if_neg heq]
    have hb1 : lo ≤ max lo (min hi v) := le_max_left _ _
    have hb2 : max lo (min hi v) ≤ hi := max_le h (min_le_left _ _)
    constructor
    · exact div_nonneg (by linarith) (by linarith)
    · rw [div_le_one (by linarith)]
      linarith

theorem projectPoint_x_bounds (e : Bool) (xMin xMax yMin yMax : ℚ)
    (hx : xMin ≤ xMax) (p : NormalizedPoint) :
    (geometry e).leftPadding ≤ (projectPoint (geometry e) xMin xMax yMin yMax p).x ∧
      (projectPoint (geometry e) xMin xMax yMin yMax p).x ≤
        (geometry e).chartWidth - (geometry e).rightPadding := by
  obtain ⟨h0, h1⟩ := bounded_ratio_mem xMin xMax p.xValue hx
  have hW : 0 ≤ (geometry e).plotWidth := geometry_plotWidth_nonneg e
  have hxpx : (projectPoint (geometry e) xMin xMax yMin yMax p).x =
      (geometry e).leftPadding +
        (max xMin (min xMax p.xValue) - xMin) /
          (if xMax = xMin then 1 else xMax - xMin) * (geometry e).plotWidth := rfl
  rw [hxpx]
  constructor
  · nlinarith
  · have hsum : (geometry e).leftPadding + (geometry e).plotWidth =
        (geometry e).chartWidth - (geometry e).rightPadding := by
      rw [Geometry.plotWidth]; ring
    nlinarith

theorem projectPoint_y_bounds (e : Bool) (xMin xMax yMin yMax : ℚ)
    (hy : yMin ≤ yMax) (p : NormalizedPoint) :
    (geometry e).topPadding ≤ (projectPoint (geometry e) xMin xMax yMin yMax p).y ∧
      (projectPoint (geometry e) xMin xMax yMin yMax p).y ≤
        (geometry e).chartHeight - (geometry e).bottomPadding := by
  obtain ⟨h0, h1⟩ := bounded_ratio_mem yMin yMax p.yValue hy
  have hH : 0 ≤ (geometry e).plotHeight := geometry_plotHeight_nonneg e
  have hypx : (projectPoint (geometry e) xMin xMax yMin yMax p).y =
      (geometry e).chartHeight - (geometry e).bottomPadding -
        (max yMin (min yMax p.yValue) - yMin) /
          (if yMax = yMin then 1 else yMax - yMin) * (geometry e).plotHeight := rfl
  rw [hypx]
  have hsum : (geometry e).chartHeight - (geometry e).bottomPadding -
      (geometry e).plotHeight = (geometry e).topPadding := by
    rw [Geometry.plotHeight]; ring
  constructor
  · nlinarith
  · nlinarith

theorem projectPoint_x_left (g : Geometry) (xMin xMax yMin yMax : ℚ)
    (p : NormalizedPoint) (hp : p.xValue < xMin) :
    (projectPoint g xMin xMax yMin yMax p).x = g.leftPadding := by
  have hb : max xMin (min xMax p.xValue) = xMin := by
    rw [max_eq_left]
    exact le_trans (min_le_right _ _) hp.le
  show g.leftPadding + (max xMin (min xMax p.xValue) - xMin) /
      (if xMax = xMin then 1 else xMax - xMin) * g.plotWidth = g.leftPadding
  rw [hb]
  simp

theorem projectPoint_x_right (g : Geometry) (xMin xMax yMin yMax : ℚ)
    (hx : xMin < xMax) (p : NormalizedPoint) (hp : xMax < p.xValue) :
    (projectPoint g xMin xMax yMin yMax p).x =
      g.chartWidth - g.rightPadding := by
  have hb : max xMin (min xMax p.xValue) = xMax := by
    rw [min_eq_left hp.le, max_eq_right hx.le]
  show g.leftPadding + (max xMin (min xMax p.xValue) - xMin) /
      (if xMax = xMin then 1 else xMax - xMin) * g.plotWidth =
    g.chartWidth - g.rightPadding
  rw [hb, if_neg (ne_of_gt hx), div_self (by linarith), one_mul,
    Geometry.plotWidth]
  ring

theorem projectPoint_y_bottom (g : Geometry) (xMin xMax yMin yMax : ℚ)
    (p : NormalizedPoint) (hp : p.yValue < yMin) :
    (projectPoint g xMin xMax yMin yMax p).y =
      g.chartHeight - g.bottomPadding := by
  have hb : max yMin (min yMax p.yValue) = yMin := by
    rw [max_eq_left]
    exact le_trans (min_le_right _ _) hp.le
  show g.chartHeight - g.bottomPadding - (max yMin (min yMax p.yValue) - yMin) /
      (if yMax = yMin then 1 else yMax - yMin) * g.plotHeight =
    g.chartHeight - g.bottomPadding
  rw [hb]
  simp

theorem projectPoint_y_top (g : Geometry) (xMin xMax yMin yMax : ℚ)
    (hy : yMin < yMax) (p : NormalizedPoint) (hp : yMax < p.yValue) :
    (projectPoint g xMin xMax yMin yMax p).y = g.topPadding := by
  have hb : max yMin (min yMax p.yValue) = yMax := by
    rw [min_eq_left hp.le, max_eq_right hy.le]
  show g.chartHeight - g.bottomPadding - (max yMin (min yMax p.yValue) - yMin) /
      (if yMax = yMin then 1 else yMax - yMin) * g.plotHeight = g.topPadding
  rw [hb, if_neg (ne_of_gt hy), div_self (by linarith), one_mul,
    Geometry.plotHeight]
  ring

theorem projectPoint_x_mono (e : Bool) (xMin xMax yMin yMax : ℚ)
    (hx : xMin ≤ xMax) (p q : NormalizedPoint) (hpq : p.xValue ≤ q.xValue) :
    (projectPoint (geometry e) xMin xMax yMin yMax p).x ≤
      (projectPoint (geometry e) xMin xMax yMin yMax q).x := by
  have hW : 0 ≤ (geometry e).plotWidth := geometry_plotWidth_nonneg e
  have hden : 0 < (if xMax = xMin then 1 else xMax - xMin) := by
    split
    · norm_num
    · rename_i hne
      have : xMin < xMax := lt_of_le_of_ne hx (fun hc => hne hc.symm)
      linarith
  have hmono : max xMin (min xMax p.xValue) ≤ max xMin (min xMax q.xValue) :=
    max_le_max (le_refl _) (min_le_min (le_refl _) hpq)
  show (geometry e).leftPadding + (max xMin (min xMax p.xValue) - xMin) /
      (if xMax = xMin then 1 else xMax - xMin) * (geometry e).plotWidth ≤
    (geometry e).leftPadding + (max xMin (min xMax q.xValue) - xMin) /
      (if xMax = xMin then 1 else xMax - xMin) * (geometry e).plotWidth
  have hdiv : (max xMin (min xMax p.xValue) - xMin) /
      (if xMax = xMin then 1 else xMax - xMin) ≤
    (max xMin (min xMax q.xValue) - xMin) /
      (if xMax = xMin then 1 else xMax - xMin) :=
    (div_le_div_iff_of_pos_right hden).mpr (by linarith)
  nlinarith

theorem mem_xValuesOf (nss : List NormalizedSeries) (ns : NormalizedSeries)
    (hns : ns ∈ nss) (np : NormalizedPoint) (hnp : np ∈ ns.points) :
    np.xValue ∈ xValuesOf nss := by
  unfold xValuesOf
  rw [List.mem_flatMap]
  exact ⟨ns, hns, List.mem_map.mpr ⟨np, hnp, rfl⟩⟩

/-- C3: every rendered pixel lies inside the plot area, and
out-of-domain values are clamped to the corresponding plot edge: below
the x range to the left edge, above to the right edge, below the y
range to the bottom edge, above to the top edge. -/
theorem spec_c3 (isExpanded : Bool) (metricId : String)
    (accessor : EmulatedPerSecondStat → Option ℚ) (series : List ChartSeries)
    (rs : RenderSeries) (hrs : rs ∈ chartRender isExpanded metricId accessor series)
    (p : ProjectedPoint) (hp : p ∈ rs.svgPoints) :
    ((geometry isExpanded).leftPadding ≤ p.x ∧
      p.x ≤ (geometry isExpanded).chartWidth - (geometry isExpanded).rightPadding) ∧
    ((geometry isExpanded).topPadding ≤ p.y ∧
      p.y ≤ (geometry isExpanded).chartHeight - (geometry isExpanded).bottomPadding) ∧
    (p.xValue < 0 → p.x = (geometry isExpanded).leftPadding) ∧
    (xMaxOf (normalizedSeries accessor series) < p.xValue →
      p.x = (geometry isExpanded).chartWidth - (geometry isExpanded).rightPadding) ∧
    (p.yValue < (yScaleOf metricId (normalizedSeries accessor series)).min →
      p.y = (geometry isExpanded).chartHeight - (geometry isExpanded).bottomPadding) ∧
    ((yScaleOf metricId (normalizedSeries accessor series)).max < p.yValue →
      p.y = (geometry isExpanded).topPadding) := by
  obtain ⟨ns, hns, rfl⟩ := List.mem_map.mp hrs
  obtain ⟨np, hnp, rfl⟩ := List.mem_map.mp hp
  have hx : (0 : ℚ) ≤ xMaxOf (normalizedSeries accessor series) :=
    xMaxOf_nonneg _
  have hymin := yScaleOf_min_le_zero metricId (normalizedSeries accessor series)
  have hymax := yScaleOf_zero_lt_max metricId (normalizedSeries accessor series)
  have hy : (yScaleOf metricId (normalizedSeries accessor series)).min <
      (yScaleOf metricId (normalizedSeries accessor series)).max := by
    linarith
  refine ⟨projectPoint_x_bounds isExpanded _ _ _ _ hx _,
    projectPoint_y_bounds isExpanded _ _ _ _ hy.le _, ?_, ?_, ?_, ?_⟩
  · intro h
    rw [projectPoint_xValue] at h
    exact projectPoint_x_left _ _ _ _ _ _ h
  · intro h
    exfalso
    rw [projectPoint_xValue] at h
    have := le_xMaxOf (normalizedSeries accessor series) np.xValue
      (mem_xValuesOf _ ns hns np hnp)
    linarith
  · intro h
    rw [projectPoint_yValue] at h
    exact projectPoint_y_bottom _ _ _ _ _ _ h
  · intro h
    rw [projectPoint_yValue] at h
    exact projectPoint_y_top _ _ _ _ _ hy _ h

/-- C10: projection is monotone in the domain x value: for any two
points of the same chart, ordered x values project to ordered pixel x
positions. -/
theorem spec_c10 (isExpanded : Bool) (metricId : String)
    (accessor : EmulatedPerSecondStat → Option ℚ) (series : List ChartSeries)
    (rs rt : RenderSeries)
    (hrs : rs ∈ chartRender isExpanded metricId accessor series)
    (hrt : rt ∈ chartRender isExpanded metricId accessor series)
    (p q : ProjectedPoint) (hp : p ∈ rs.svgPoints) (hq : q ∈ rt.svgPoints)
    (hpq : p.xValue ≤ q.xValue) : p.x ≤ q.x := by
  obtain ⟨ns, hns, rfl⟩ := List.mem_map.mp hrs
  obtain ⟨nt, hnt, rfl⟩ := List.mem_map.mp hrt
  obtain ⟨np, hnp, rfl⟩ := List.mem_map.mp hp
  obtain ⟨nq, hnq, rfl⟩ := List.mem_map.mp hq
  rw [projectPoint_xValue, projectPoint_xValue] at hpq
  exact projectPoint_x_mono isExpanded _ _ _ _
    (xMaxOf_nonneg (normalizedSeries accessor series)) np nq hpq

/-- Sample data used by the concrete witnesses: run 101, client 1,
`cubic`, two throughput samples. -/
def sampleStat1 : EmulatedPerSecondStat :=
  ⟨1, 101, some 0, some 0, some 10, none, none, none, none⟩

def sampleStat2 : EmulatedPerSecondStat :=
  ⟨2, 101, some 1, some 1, some 12, none, none, none, none⟩

def sampleSeries1 : ChartSeries :=
  ⟨101, "cubic", "cubic", "cubic, 50ms", "#0d9488", [sampleStat1, sampleStat2]⟩

def sampleRender1 : RenderSeries :=
  ⟨101, "cubic", "cubic", "cubic, 50ms", "#0d9488",
    [⟨0, 10, 56, 311 / 2⟩, ⟨1, 12, 442, 153⟩]⟩

theorem sample_normalized :
    normalizedSeries (fun point => point.megabitsPerSecond) [sampleSeries1] =
      [⟨101, "cubic", "cubic", "cubic, 50ms", "#0d9488",
        [⟨0, 10⟩, ⟨1, 12⟩]⟩] := by
  decide

theorem sample_chartRender :
    chartRender false "mbps" (fun point => point.megabitsPerSecond)
      [sampleSeries1] = [sampleRender1] := by
  unfold chartRender
  rw [sample_normalized, yScaleOf_mbps]
  unfold seriesForRender projectPoint xMaxOf xValuesOf
  simp only [geometry, Geometry.plotWidth, Geometry.plotHeight, sampleRender1,
    List.map_cons, List.map_nil, List.flatMap_cons, List.flatMap_nil,
    List.foldl_cons, List.foldl_nil, List.append_nil, if_false]
  norm_num

/-- Witness for `spec_c3` on the sample throughput chart. -/
theorem spec_c3_witness :
    (geometry false).leftPadding ≤ (ProjectedPoint.mk 0 10 56 (311 / 2)).x ∧
      (ProjectedPoint.mk 0 10 56 (311 / 2)).x ≤
        (geometry false).chartWidth - (geometry false).rightPadding := by
  have h := spec_c3 false "mbps" (fun point => point.megabitsPerSecond)
    [sampleSeries1] sampleRender1
    (by rw [sample_chartRender]; exact List.mem_singleton_self _)
    ⟨0, 10, 56, 311 / 2⟩
    (by simp [sampleRender1])
  exact h.1

/-- Witness for `spec_c10` on the sample throughput chart. -/
theorem spec_c10_witness :
    (ProjectedPoint.mk 0 10 56 (311 / 2)).x ≤
      (ProjectedPoint.mk 1 12 442 153).x :=
  spec_c10 false "mbps" (fun point => point.megabitsPerSecond) [sampleSeries1]
    sampleRender1 sampleRender1
    (by rw [sample_chartRender]; exact List.mem_singleton_self _)
    (by rw [sample_chartRender]; exact List.mem_singleton_self _)
    ⟨0, 10, 56, 311 / 2⟩ ⟨1, 12, 442, 153⟩
    (by simp [sampleRender1]) (by simp [sampleRender1])
    (by norm_num)

/-- `Number(point.xValue.toFixed(3))`: round to 3 decimal digits
(line 752). -/
def round3 (q : ℚ) : ℚ := round (q * 1000) / 1000

/-- One `sumByX.set(roundedX, current + yValue)` step (lines 753-754).
A JS `Map` keeps an existing key at its position and appends a new key
at the end; the association list mirrors that. -/
def mapSetAdd (m : List (ℚ × ℚ)) (k v : ℚ) : List (ℚ × ℚ) :=
  if m.any (fun e => decide (e.1 = k)) then
    m.map (fun e => if e.1 = k then (e.1, e.2 + v) else e)
  else m ++ [(k, v)]

/-- The `sumByX` map after both loops of lines 749-756. -/
def sumByX (nss : List NormalizedSeries) : List (ℚ × ℚ) :=
  nss.foldl (fun m runSeries =>
    runSeries.points.foldl
      (fun acc p => mapSetAdd acc (round3 p.xValue) p.yValue) m) []

/-- The synthetic series' point list (lines 758-760): map entries to
points and sort by x ascending.  JS `Array.prototype.sort` with the
numeric comparator produces the unique `xValue`-sorted order (keys are
distinct), modelled by insertion sort under `≤` on `xValue`. -/
def throughputSumPoints (nss : List NormalizedSeries) : List NormalizedPoint :=
  List.insertionSort (fun a b => a.xValue ≤ b.xValue)
    ((sumByX nss).map (fun e => ⟨e.1, e.2⟩))

/-- `throughputSumForRender` (lines 746-795): `null` unless the metric
is throughput and at least one bucket exists; otherwise the synthetic
"sum Mbps" series with projected points. -/
def throughputSumForRender (metricId : String) (g : Geometry)
    (xMin xMax yMin yMax : ℚ) (nss : List NormalizedSeries) :
    Option RenderSeries :=
  if metricId = "mbps" then
    if throughputSumPoints nss = [] then none
    else
      some
        { runId := THROUGHPUT_SUM_SERIES_ID
          shortLabel := "sum Mbps"
          label := "sum Mbps"
          clientSummary := "sum Mbps"
          color := "#eab308"
          svgPoints :=
            (throughputSumPoints nss).map (projectPoint g xMin xMax yMin yMax) }
  else none

/-- `interactiveSeriesForRender` (lines 796-798): the real series plus
the synthetic sum series when present. -/
def interactiveSeriesForRender (isExpanded : Bool) (metricId : String)
    (accessor : EmulatedPerSecondStat → Option ℚ)
    (series : List ChartSeries) : List RenderSeries :=
  match throughputSumForRender metricId (geometry isExpanded) 0
      (xMaxOf (normalizedSeries accessor series))
      (yScaleOf metricId (normalizedSeries accessor series)).min
      (yScaleOf metricId (normalizedSeries accessor series)).max
      (normalizedSeries accessor series) with
  | some t => chartRender isExpanded metricId accessor series ++ [t]
  | none => chartRender isExpanded metricId accessor series

/-- Every normalized point of the chart, in series order. -/
def allPoints (nss : List NormalizedSeries) : List NormalizedPoint :=
  nss.flatMap (fun runSeries => runSeries.points)

/-- The spec-level bucket sum: total y over all points whose rounded x
is `x`. -/
def bucketWeight (nss : List NormalizedSeries) (x : ℚ) : ℚ :=
  (((allPoints nss).filter (fun p => decide (round3 p.xValue = x))).map
    (fun p => p.yValue)).sum

/-- The y total an association list stores under key `x`. -/
def entriesWeight (m : List (ℚ × ℚ)) (x : ℚ) : ℚ :=
  ((m.filter (fun e => decide (e.1 = x))).map (fun e => e.2)).sum

theorem entriesWeight_cons (e : ℚ × ℚ) (t : List (ℚ × ℚ)) (x : ℚ) :
    entriesWeight (e :: t) x =
      (if e.1 = x then e.2 else 0) + entriesWeight t x := by
  unfold entriesWeight
  rw [List.filter_cons]
  by_cases h : e.1 = x
  · simp [h]
  · simp [h]

theorem entriesWeight_nil (x : ℚ) : entriesWeight [] x = 0 := rfl

theorem mapSetAdd_map_id (rest : List (ℚ × ℚ)) (k v : ℚ)
    (h : ∀ e ∈ rest, e.1 ≠ k) :
    rest.map (fun e : ℚ × ℚ => if e.1 = k then (e.1, e.2 + v) else e) = rest := by
  rw [show rest = rest.map id by simp]
  rw [List.map_map]
  apply List.map_congr_left
  intro e he
  simp [h e (by simpa using he)]

theorem mapSetAdd_keys (m : List (ℚ × ℚ)) (k v : ℚ) :
    (mapSetAdd m k v).map Prod.fst =
      if m.any (fun e => decide (e.1 = k)) then m.map Prod.fst
      else m.map Prod.fst ++ [k] := by
  unfold mapSetAdd
  split
  · rw [List.map_map]
    apply List.map_congr_left
    intro e _
    by_cases h : e.1 = k <;> simp [h]
  · simp

theorem any_key_eq_false_iff (m : List (ℚ × ℚ)) (k : ℚ) :
    m.any (fun e => decide (e.1 = k)) = false ↔ ∀ e ∈ m, e.1 ≠ k := by
  rw [List.any_eq_false]
  constructor
  · intro h e he
    simpa using h e he
  · intro h e he
    simpa using h e he

theorem mapSetAdd_nodup (m : List (ℚ × ℚ)) (k v : ℚ)
    (h : (m.map Prod.fst).Nodup) :
    ((mapSetAdd m k v).map Prod.fst).Nodup := by
  rw [mapSetAdd_keys]
  split
  · exact h
  · rename_i hany
    have hnot : ∀ e ∈ m, e.1 ≠ k :=
      (any_key_eq_false_iff m k).mp (Bool.eq_false_iff.mpr hany)
    rw [List.nodup_append]
    refine ⟨h, List.nodup_singleton k, ?_⟩
    intro a ha hb
    rw [List.mem_singleton] at hb
    subst hb
    obtain ⟨e, he, hek⟩ := List.mem_map.mp ha
    exact hnot e he hek

theorem mapSetAdd_mem_keys (m : List (ℚ × ℚ)) (k v x : ℚ) :
    x ∈ (mapSetAdd m k v).map Prod.fst ↔
      x ∈ m.map Prod.fst ∨ x = k := by
  rw [mapSetAdd_keys]
  split
  · rename_i hany
    obtain ⟨e, he, hp⟩ := List.any_eq_true.mp hany
    have hek : e.1 = k := of_decide_eq_true hp
    constructor
    · exact Or.inl
    · rintro (h | rfl)
      · exact h
      · exact List.mem_map.mpr ⟨e, he, hek⟩
  · simp

theorem mapSetAdd_weight (m : List (ℚ × ℚ)) (k v x : ℚ)
    (hnodup : (m.map Prod.fst).Nodup) :
    entriesWeight (mapSetAdd m k v) x =
      entriesWeight m x + (if x = k then v else 0) := by
  induction m with
  | nil =>
    show entriesWeight [(k, v)] x = entriesWeight [] x + (if x = k then v else 0)
    rw [entriesWeight_cons, entriesWeight_nil]
    dsimp only
    by_cases h : x = k
    · rw [if_pos h.symm, if_pos h]
      ring
    · rw [if_neg (fun hc : k = x => h hc.symm), if_neg h]
  | cons e rest ih =>
    rw [List.map_cons, List.nodup_cons] at hnodup
    obtain ⟨hek, hrest⟩ := hnodup
    by_cases heq : e.1 = k
    · have hany : (e :: rest).any (fun a => decide (a.1 = k)) = true := by
        simp [heq]
      have hnotrest : ∀ a ∈ rest, a.1 ≠ k := by
        intro a ha hak
        apply hek
        rw [heq]
        exact List.mem_map.mpr ⟨a, ha, hak⟩
      unfold mapSetAdd
      rw [if_pos hany, List.map_cons, if_pos heq,
        mapSetAdd_map_id rest k v hnotrest]
      rw [entriesWeight_cons, entriesWeight_cons]
      dsimp only
      by_cases hx : x = k
      · subst hx
        rw [if_pos (heq : e.1 = x), if_pos (heq : e.1 = x), if_pos rfl]
        ring
      · have hex : ¬ e.1 = x := fun hc => hx (hc.symm.trans heq)
        rw [if_neg hex, if_neg hex, if_neg hx]
        ring
    · have hanyc : ∀ b : Bool, rest.any (fun a => decide (a.1 = k)) = b →
          (e :: rest).any (fun a => decide (a.1 = k)) = b := by
        intro b hb
        simp [heq, hb]
      by_cases hrestany : rest.any (fun a => decide (a.1 = k)) = true
      · have hmr : mapSetAdd rest k v =
            rest.map (fun a : ℚ × ℚ => if a.1 = k then (a.1, a.2 + v) else a) := by
          unfold mapSetAdd
          rw [if_pos hrestany]
        unfold mapSetAdd
        rw [if_pos (hanyc true hrestany), List.map_cons, if_neg heq]
        rw [entriesWeight_cons, entriesWeight_cons, ← hmr, ih hrest]
        ring
      · have hrestany' : rest.any (fun a => decide (a.1 = k)) = false :=
          Bool.eq_false_iff.mpr hrestany
        have hmr : mapSetAdd rest k v = rest ++ [(k, v)] := by
          unfold mapSetAdd
          rw [if_neg (by rw [hrestany']; exact Bool.false_ne_true)]
        unfold mapSetAdd
        rw [if_neg (by rw [hanyc false hrestany']; exact Bool.false_ne_true),
          List.cons_append]
        rw [entriesWeight_cons, entriesWeight_cons, ← hmr, ih hrest]
        ring

theorem entriesWeight_eq_zero (m : List (ℚ × ℚ)) (x : ℚ)
    (h : ∀ e ∈ m, e.1 ≠ x) : entriesWeight m x = 0 := by
  induction m with
  | nil => rfl
  | cons e rest ih =>
    rw [entriesWeight_cons, if_neg (h e (List.mem_cons_self e rest)),
      ih (fun a ha => h a (List.mem_cons_of_mem e ha))]
    ring

theorem mem_value_eq_weight (m : List (ℚ × ℚ))
    (hnodup : (m.map Prod.fst).Nodup) :
    ∀ e ∈ m, e.2 = entriesWeight m e.1 := by
  induction m with
  | nil => intro e he; cases he
  | cons a rest ih =>
    rw [List.map_cons, List.nodup_cons] at hnodup
    obtain ⟨ha, hrest⟩ := hnodup
    intro e he
    rcases List.mem_cons.mp he with rfl | hmem
    · rw [entriesWeight_cons, if_pos rfl]
      have hz : entriesWeight rest e.1 = 0 := by
        apply entriesWeight_eq_zero
        intro b hb hbe
        exact ha (hbe ▸ List.mem_map.mpr ⟨b, hb, rfl⟩)
      rw [hz]
      ring
    · rw [entriesWeight_cons, if_neg (fun hc : a.1 = e.1 =>
        ha (hc ▸ List.mem_map.mpr ⟨e, hmem, rfl⟩)), ih hrest e hmem]
      ring

theorem foldl_mapSetAdd_nodup (l : List NormalizedPoint) :
    ∀ m : List (ℚ × ℚ), (m.map Prod.fst).Nodup →
      ((l.foldl (fun acc p => mapSetAdd acc (round3 p.xValue) p.yValue)
          m).map Prod.fst).Nodup := by
  induction l with
  | nil => intro m hm; exact hm
  | cons p rest ih =>
    intro m hm
    exact ih _ (mapSetAdd_nodup _ _ _ hm)

theorem foldl_mapSetAdd_weight (x : ℚ) (l : List NormalizedPoint) :
    ∀ m : List (ℚ × ℚ), (m.map Prod.fst).Nodup →
      entriesWeight
          (l.foldl (fun acc p => mapSetAdd acc (round3 p.xValue) p.yValue) m)
          x =
        entriesWeight m x +
          ((l.filter (fun p => decide (round3 p.xValue = x))).map
            (fun p => p.yValue)).sum := by
  induction l with
  | nil => intro m hm; simp
  | cons p rest ih =>
    intro m hm
    rw [List.foldl_cons, ih _ (mapSetAdd_nodup _ _ _ hm),
      mapSetAdd_weight _ _ _ _ hm, List.filter_cons]
    by_cases hp : round3 p.xValue = x
    · rw [if_pos (decide_eq_true hp), List.map_cons, List.sum_cons,
        if_pos hp.symm]
      ring
    · have h1 : ¬ x = round3 p.xValue := fun hc => hp hc.symm
      have h2 : ¬ (decide (round3 p.xValue = x) = true) := by simp [hp]
      rw [if_neg h1, if_neg h2]
      ring

theorem foldl_mapSetAdd_mem (l : List NormalizedPoint) :
    ∀ (m : List (ℚ × ℚ)) (x : ℚ),
      (x ∈ (l.foldl (fun acc p => mapSetAdd acc (round3 p.xValue) p.yValue)
          m).map Prod.fst ↔
        x ∈ m.map Prod.fst ∨ ∃ p ∈ l, round3 p.xValue = x) := by
  induction l with
  | nil => intro m x; simp
  | cons p rest ih =>
    intro m x
    rw [List.foldl_cons, ih, mapSetAdd_mem_keys, List.exists_mem_cons_iff]
    constructor
    · rintro ((h | h) | h)
      · exact Or.inl h
      · exact Or.inr (Or.inl h.symm)
      · exact Or.inr (Or.inr h)
    · rintro (h | h | h)
      · exact Or.inl (Or.inl h)
      · exact Or.inl (Or.inr h.symm)
      · exact Or.inr h

theorem sumByX_eq (nss : List NormalizedSeries) :
    sumByX nss =
      (allPoints nss).foldl
        (fun acc p => mapSetAdd acc (round3 p.xValue) p.yValue) [] := by
  suffices h : ∀ (l : List NormalizedSeries) (m : List (ℚ × ℚ)),
      l.foldl (fun m runSeries =>
        runSeries.points.foldl
          (fun acc p => mapSetAdd acc (round3 p.xValue) p.yValue) m) m =
      (l.flatMap (fun runSeries => runSeries.points)).foldl
        (fun acc p => mapSetAdd acc (round3 p.xValue) p.yValue) m by
    exact h nss []
  intro l
  induction l with
  | nil => intro m; rfl
  | cons s rest ih =>
    intro m
    rw [List.foldl_cons, List.flatMap_cons, List.foldl_append, ih]

theorem sumByX_nodup (nss : List NormalizedSeries) :
    ((sumByX nss).map Prod.fst).Nodup := by
  rw [sumByX_eq]
  exact foldl_mapSetAdd_nodup _ [] (by simp)

theorem sumByX_weight (nss : List NormalizedSeries) (x : ℚ) :
    entriesWeight (sumByX nss) x = bucketWeight nss x := by
  rw [sumByX_eq, foldl_mapSetAdd_weight x _ [] (by simp), entriesWeight_nil,
    zero_add]
  rfl

theorem sumByX_mem_keys (nss : List NormalizedSeries) (x : ℚ) :
    x ∈ (sumByX nss).map Prod.fst ↔
      ∃ p ∈ allPoints nss, round3 p.xValue = x := by
  rw [sumByX_eq, foldl_mapSetAdd_mem]
  simp

instance : IsTotal NormalizedPoint (fun a b => a.xValue ≤ b.xValue) :=
  ⟨fun a b => le_total a.xValue b.xValue⟩

instance : IsTrans NormalizedPoint (fun a b => a.xValue ≤ b.xValue) :=
  ⟨fun _ _ _ hab hbc => le_trans hab hbc⟩

theorem throughputSumPoints_perm (nss : List NormalizedSeries) :
    List.Perm (throughputSumPoints nss)
      ((sumByX nss).map (fun e => NormalizedPoint.mk e.1 e.2)) :=
  List.perm_insertionSort _ _

theorem throughputSumPoints_sorted (nss : List NormalizedSeries) :
    (throughputSumPoints nss).Pairwise (fun a b => a.xValue ≤ b.xValue) :=
  List.sorted_insertionSort _ _

theorem throughputSumPoints_keys_nodup (nss : List NormalizedSeries) :
    ((throughputSumPoints nss).map (fun p => p.xValue)).Nodup := by
  have h1 := (throughputSumPoints_perm nss).map (fun p => p.xValue)
  have h2 : ((sumByX nss).map
      (fun e : ℚ × ℚ => NormalizedPoint.mk e.1 e.2)).map (fun p => p.xValue) =
      (sumByX nss).map Prod.fst := by
    rw [List.map_map]
    rfl
  rw [h2] at h1
  exact h1.nodup_iff.mpr (sumByX_nodup nss)

theorem throughputSumPoints_strict (nss : List NormalizedSeries) :
    (throughputSumPoints nss).Pairwise (fun a b => a.xValue < b.xValue) := by
  have hs := throughputSumPoints_sorted nss
  have hn : (throughputSumPoints nss).Pairwise
      (fun a b => a.xValue ≠ b.xValue) :=
    List.pairwise_map.mp (throughputSumPoints_keys_nodup nss)
  exact (hs.and hn).imp (fun h => lt_of_le_of_ne h.1 h.2)

theorem throughputSumPoints_weight (nss : List NormalizedSeries) :
    ∀ b ∈ throughputSumPoints nss, b.yValue = bucketWeight nss b.xValue := by
  intro b hb
  have hb' : b ∈ (sumByX nss).map (fun e : ℚ × ℚ => NormalizedPoint.mk e.1 e.2) :=
    (throughputSumPoints_perm nss).mem_iff.mp hb
  obtain ⟨e, he, rfl⟩ := List.mem_map.mp hb'
  show e.2 = bucketWeight nss e.1
  rw [mem_value_eq_weight (sumByX nss) (sumByX_nodup nss) e he,
    sumByX_weight]

theorem throughputSumPoints_mem_keys (nss : List NormalizedSeries) (x : ℚ) :
    (∃ b ∈ throughputSumPoints nss, b.xValue = x) ↔
      ∃ p ∈ allPoints nss, round3 p.xValue = x := by
  rw [← sumByX_mem_keys]
  constructor
  · rintro ⟨b, hb, rfl⟩
    have hb' : b ∈ (sumByX nss).map
        (fun e : ℚ × ℚ => NormalizedPoint.mk e.1 e.2) :=
      (throughputSumPoints_perm nss).mem_iff.mp hb
    obtain ⟨e, he, rfl⟩ := List.mem_map.mp hb'
    exact List.mem_map.mpr ⟨e, he, rfl⟩
  · intro hx
    obtain ⟨e, he, rfl⟩ := List.mem_map.mp hx
    refine ⟨NormalizedPoint.mk e.1 e.2, ?_, rfl⟩
    exact (throughputSumPoints_perm nss).mem_iff.mpr
      (List.mem_map.mpr ⟨e, he, rfl⟩)

/-- Two runs whose single throughput samples sit at `x = 1.0001` and
`x = 1.0003`. -/
def sumSampleA : List NormalizedSeries :=
  [⟨201, "c1", "c1", "c1", "#0d9488", [⟨10001 / 10000, 3⟩]⟩,
   ⟨202, "c2", "c2", "c2", "#dc2626", [⟨10003 / 10000, 4⟩]⟩]

/-- Two runs sampled at `x = 1.0` and `x = 2.0`. -/
def sumSampleB : List NormalizedSeries :=
  [⟨203, "c1", "c1", "c1", "#0d9488", [⟨1, 3⟩, ⟨2, 5⟩]⟩,
   ⟨204, "c2", "c2", "c2", "#dc2626", [⟨1, 4⟩, ⟨2, 6⟩]⟩]

theorem throughputSumPoints_sampleA :
    throughputSumPoints sumSampleA = [⟨1, 7⟩] := by
  unfold throughputSumPoints sumByX sumSampleA
  simp only [List.foldl_cons, List.foldl_nil]
  norm_num [mapSetAdd, round3, round_eq, List.insertionSort,
    List.orderedInsert]

theorem throughputSumPoints_sampleB :
    throughputSumPoints sumSampleB = [⟨1, 7⟩, ⟨2, 11⟩] := by
  unfold throughputSumPoints sumByX sumSampleB
  simp only [List.foldl_cons, List.foldl_nil]
  norm_num [mapSetAdd, round3, round_eq, List.insertionSort,
    List.orderedInsert]

/-- C4: the Aggregate Series Synthesizer groups normalized points by
x rounded to 3 decimals, sums y per bucket, sorts buckets by x
ascending, emits one synthetic "sum Mbps" series, and adds nothing when
the bucket set is empty; concretely `1.0001` and `1.0003` merge into
one bucket summing both runs, and `1.0`/`2.0` give two buckets. -/
theorem spec_c4 :
    (∀ nss : List NormalizedSeries,
      (throughputSumPoints nss).Pairwise (fun a b => a.xValue < b.xValue)) ∧
    (∀ nss : List NormalizedSeries, ∀ b ∈ throughputSumPoints nss,
      b.yValue = bucketWeight nss b.xValue) ∧
    (∀ (nss : List NormalizedSeries) (x : ℚ),
      (∃ b ∈ throughputSumPoints nss, b.xValue = x) ↔
        ∃ p ∈ allPoints nss, round3 p.xValue = x) ∧
    (∀ (g : Geometry) (xMin xMax yMin yMax : ℚ)
        (nss : List NormalizedSeries),
      throughputSumPoints nss = [] →
        throughputSumForRender "mbps" g xMin xMax yMin yMax nss = none) ∧
    (∀ (g : Geometry) (xMin xMax yMin yMax : ℚ)
        (nss : List NormalizedSeries),
      throughputSumPoints nss ≠ [] →
        throughputSumForRender "mbps" g xMin xMax yMin yMax nss =
          some
            { runId := THROUGHPUT_SUM_SERIES_ID
              shortLabel := "sum Mbps"
              label := "sum Mbps"
              clientSummary := "sum Mbps"
              color := "#eab308"
              svgPoints := (throughputSumPoints nss).map
                (projectPoint g xMin xMax yMin yMax) }) ∧
    throughputSumPoints sumSampleA = [⟨1, 7⟩] ∧
    throughputSumPoints sumSampleB = [⟨1, 7⟩, ⟨2, 11⟩] := by
  refine ⟨throughputSumPoints_strict, throughputSumPoints_weight,
    throughputSumPoints_mem_keys, ?_, ?_,
    throughputSumPoints_sampleA, throughputSumPoints_sampleB⟩
  · intro g xMin xMax yMin yMax nss h
    unfold throughputSumForRender
    rw [if_pos rfl, if_pos h]
  · intro g xMin xMax yMin yMax nss h
    unfold throughputSumForRender
    rw [if_pos rfl, if_neg h]

/-- Witness for `spec_c4`'s bucket-sum clause on the merged bucket of
the `1.0001`/`1.0003` sample. -/
theorem spec_c4_witness :
    (NormalizedPoint.mk 1 7).yValue =
      bucketWeight sumSampleA (NormalizedPoint.mk 1 7).xValue :=
  spec_c4.2.1 sumSampleA ⟨1, 7⟩
    (by rw [throughputSumPoints_sampleA]; exact List.mem_singleton_self _)

/-- `HoveredSliceValue` (lines 58-65). -/
structure HoveredSliceValue where
  runId : ℤ
  shortLabel : String
  color : String
  yValue : ℚ
  pointX : ℚ
  pointY : ℚ
  deriving DecidableEq, Repr, Inhabited

/-- `HoveredSlice` (lines 67-71). -/
structure HoveredSlice where
  x : ℚ
  xValue : ℚ
  values : List HoveredSliceValue
  deriving DecidableEq, Repr, Inhabited

/-- The reduce callback of the slice hit-test (lines 914-918): keep the
point strictly closer in domain x, otherwise keep the earlier one. -/
def nearestStep (xq : ℚ) (closest point : ProjectedPoint) : ProjectedPoint :=
  if |point.xValue - xq| < |closest.xValue - xq| then point else closest

/-- `svgPoints.reduce(...)` without a seed (lines 914-918): the first
element seeds the fold; JS throws on an empty array, modelled `none`. -/
def nearestByXValue (xq : ℚ) : List ProjectedPoint → Option ProjectedPoint
  | [] => none
  | p :: rest => some (rest.foldl (nearestStep xq) p)

/-- The per-series slice row (lines 919-926). -/
def mkSliceValue (rs : RenderSeries) (np : ProjectedPoint) : HoveredSliceValue :=
  ⟨rs.runId, rs.shortLabel, rs.color, np.yValue, np.x, np.y⟩

/-- The `values` map of `getHoveredSliceFromMouse` (lines 912-928); a
series with no projected points makes the whole query fail (the JS
reduce would throw). -/
def sliceValues (xq : ℚ) : List RenderSeries → Option (List HoveredSliceValue)
  | [] => some []
  | rs :: rest =>
    match nearestByXValue xq rs.svgPoints, sliceValues xq rest with
    | some np, some vs => some (mkSliceValue rs np :: vs)
    | _, _ => none

/-- `getHoveredSliceFromMouse` (lines 880-935).  The
`getBoundingClientRect` translation from client to SVG coordinates
(lines 889-895) is DOM geometry; this embedding takes the already
scaled `relativeX`/`relativeY` as inputs. -/
def getHoveredSliceFromMouse (g : Geometry) (xMin xDenominator : ℚ)
    (seriesList : List RenderSeries) (relativeX relativeY : ℚ) :
    Option HoveredSlice :=
  if seriesList.length = 0 then none
  else
    let minX := g.leftPadding
    let maxX := g.chartWidth - g.rightPadding
    let minY := g.topPadding
    let maxY := g.chartHeight - g.bottomPadding
    if relativeX < minX ∨ relativeX > maxX ∨ relativeY < minY ∨
        relativeY > maxY then none
    else
      let boundedX := max minX (min maxX relativeX)
      let xValue := xMin + (boundedX - minX) / max g.plotWidth 1 * xDenominator
      match sliceValues xValue seriesList with
      | some values => some ⟨boundedX, xValue, values⟩
      | none => none

/-- `np` is the point of `pts` nearest to `xq` in domain x, with ties
broken in favour of the first-encountered point: `np` occurs at an index
all of whose predecessors are strictly farther from `xq`. -/
def nearestWitness (xq : ℚ) (pts : List ProjectedPoint)
    (np : ProjectedPoint) : Prop :=
  ∃ j : ℕ, ∃ hj : j < pts.length,
    pts.get ⟨j, hj⟩ = np ∧
    (∀ q ∈ pts, |np.xValue - xq| ≤ |q.xValue - xq|) ∧
    (∀ q ∈ pts.take j, |np.xValue - xq| < |q.xValue - xq|)

theorem foldl_nearest_spec (xq : ℚ) (l : List ProjectedPoint) :
    ∀ acc : ProjectedPoint,
      (∀ q ∈ l, |(l.foldl (nearestStep xq) acc).xValue - xq| ≤
        |q.xValue - xq|) ∧
      |(l.foldl (nearestStep xq) acc).xValue - xq| ≤ |acc.xValue - xq| ∧
      (l.foldl (nearestStep xq) acc = acc ∨
        ∃ j : ℕ, ∃ hj : j < l.length,
          l.get ⟨j, hj⟩ = l.foldl (nearestStep xq) acc ∧
          |(l.foldl (nearestStep xq) acc).xValue - xq| < |acc.xValue - xq| ∧
          ∀ q ∈ l.take j,
            |(l.foldl (nearestStep xq) acc).xValue - xq| < |q.xValue - xq|) := by
  induction l with
  | nil =>
    intro acc
    exact ⟨fun q hq => absurd hq (List.not_mem_nil q), le_refl _, Or.inl rfl⟩
  | cons x xs ih =>
    intro acc
    rw [List.foldl_cons]
    by_cases hcond : |x.xValue - xq| < |acc.xValue - xq|
    · have hstep : nearestStep xq acc x = x := if_pos hcond
      rw [hstep]
      obtain ⟨ihA, ihB, ihC⟩ := ih x
      refine ⟨?_, ?_, ?_⟩
      · intro q hq
        rcases List.mem_cons.mp hq with rfl | hq'
        · exact ihB
        · exact ihA q hq'
      · exact le_trans ihB hcond.le
      · rcases ihC with heq | ⟨j, hj, hget, hlt, htake⟩
        · refine Or.inr ⟨0, by simp, ?_, ?_, ?_⟩
          · simpa using heq.symm
          · rw [heq]; exact hcond
          · intro q hq; simp at hq
        · refine Or.inr ⟨j + 1, by simpa using Nat.succ_lt_succ hj, ?_, ?_, ?_⟩
          · simpa using hget
          · exact lt_trans hlt hcond
          · intro q hq
            rw [List.take_succ_cons] at hq
            rcases List.mem_cons.mp hq with rfl | hq'
            · exact hlt
            · exact htake q hq'
    · have hstep : nearestStep xq acc x = acc := if_neg hcond
      rw [hstep]
      obtain ⟨ihA, ihB, ihC⟩ := ih acc
      have hxge : |acc.xValue - xq| ≤ |x.xValue - xq| := le_of_not_lt hcond
      refine ⟨?_, ihB, ?_⟩
      · intro q hq
        rcases List.mem_cons.mp hq with rfl | hq'
        · exact le_trans ihB hxge
        · exact ihA q hq'
      · rcases ihC with heq | ⟨j, hj, hget, hlt, htake⟩
        · exact Or.inl heq
        · refine Or.inr ⟨j + 1, by simpa using Nat.succ_lt_succ hj, ?_, hlt, ?_⟩
          · simpa using hget
          · intro q hq
            rw [List.take_succ_cons] at hq
            rcases List.mem_cons.mp hq with rfl | hq'
            · exact lt_of_lt_of_le hlt hxge
            · exact htake q hq'

theorem nearestByXValue_spec (xq : ℚ) (pts : List ProjectedPoint)
    (hne : pts ≠ []) :
    ∃ np : ProjectedPoint,
      nearestByXValue xq pts = some np ∧ nearestWitness xq pts np := by
  match pts, hne with
  | p :: rest, _ =>
    refine ⟨rest.foldl (nearestStep xq) p, rfl, ?_⟩
    obtain ⟨hA, hB, hC⟩ := foldl_nearest_spec xq rest p
    rcases hC with heq | ⟨j, hj, hget, hlt, htake⟩
    · refine ⟨0, by simp, by simpa using heq.symm, ?_, ?_⟩
      · intro q hq
        rcases List.mem_cons.mp hq with rfl | hq'
        · exact hB
        · exact hA q hq'
      · intro q hq; simp at hq
    · refine ⟨j + 1, by simpa using Nat.succ_lt_succ hj, by simpa using hget,
        ?_, ?_⟩
      · intro q hq
        rcases List.mem_cons.mp hq with rfl | hq'
        · exact hB
        · exact hA q hq'
      · intro q hq
        rw [List.take_succ_cons] at hq
        rcases List.mem_cons.mp hq with rfl | hq'
        · exact hlt
        · exact htake q hq'

def defaultSliceValue : HoveredSliceValue := ⟨0, "", "", 0, 0, 0⟩

theorem sliceValues_spec (xq : ℚ) :
    ∀ seriesList : List RenderSeries,
      (∀ rs ∈ seriesList, rs.svgPoints ≠ []) →
      ∃ values : List HoveredSliceValue,
        sliceValues xq seriesList = some values ∧
        values.length = seriesList.length ∧
        ∀ i : ℕ, ∀ hi : i < seriesList.length,
          ∃ np : ProjectedPoint,
            nearestWitness xq (seriesList.get ⟨i, hi⟩).svgPoints np ∧
            values.getD i defaultSliceValue =
              mkSliceValue (seriesList.get ⟨i, hi⟩) np := by
  intro seriesList
  induction seriesList with
  | nil =>
    intro _
    exact ⟨[], rfl, rfl, fun i hi => absurd hi (by simp)⟩
  | cons rs rest ih =>
    intro hpts
    obtain ⟨np, hnp, hw⟩ := nearestByXValue_spec xq rs.svgPoints
      (hpts rs (List.mem_cons_self rs rest))
    obtain ⟨vs, hvs, hlen, hspec⟩ :=
      ih (fun s hs => hpts s (List.mem_cons_of_mem rs hs))
    refine ⟨mkSliceValue rs np :: vs, ?_, by simp [hlen], ?_⟩
    · rw [show sliceValues xq (rs :: rest) =
          (match nearestByXValue xq rs.svgPoints, sliceValues xq rest with
            | some np', some vs' => some (mkSliceValue rs np' :: vs')
            | _, _ => none) from rfl, hnp, hvs]
    · intro i hi
      match i with
      | 0 => exact ⟨np, hw, rfl⟩
      | i + 1 =>
        have hi' : i < rest.length := by simpa using hi
        obtain ⟨np', hw', heq⟩ := hspec i hi'
        refine ⟨np', ?_, by simpa using heq⟩
        simpa using hw'

/-- C5: for a pointer inside the plot bounds the slice hit-test
computes the domain x at the pointer and, for every rendered series
independently, selects the series point nearest that x in absolute
domain distance, ties resolved to the first-encountered point in the
series' stored order. -/
theorem spec_c5 (g : Geometry) (xMin xDenominator : ℚ)
    (seriesList : List RenderSeries) (relativeX relativeY : ℚ)
    (hne : seriesList ≠ [])
    (hx1 : g.leftPadding ≤ relativeX)
    (hx2 : relativeX ≤ g.chartWidth - g.rightPadding)
    (hy1 : g.topPadding ≤ relativeY)
    (hy2 : relativeY ≤ g.chartHeight - g.bottomPadding)
    (hpts : ∀ rs ∈ seriesList, rs.svgPoints ≠ []) :
    ∃ slice : HoveredSlice,
      getHoveredSliceFromMouse g xMin xDenominator seriesList
          relativeX relativeY = some slice ∧
      slice.x = relativeX ∧
      slice.xValue =
        xMin + (relativeX - g.leftPadding) / max g.plotWidth 1 * xDenominator ∧
      slice.values.length = seriesList.length ∧
      ∀ i : ℕ, ∀ hi : i < seriesList.length,
        ∃ np : ProjectedPoint,
          nearestWitness slice.xValue (seriesList.get ⟨i, hi⟩).svgPoints np ∧
          slice.values.getD i defaultSliceValue =
            mkSliceValue (seriesList.get ⟨i, hi⟩) np := by
  have hne' : ¬ seriesList.length = 0 := by
    simpa [List.length_eq_zero] using hne
  have hb : max g.leftPadding
      (min (g.chartWidth - g.rightPadding) relativeX) = relativeX := by
    rw [min_eq_right hx2, max_eq_right hx1]
  obtain ⟨values, hvals, hlen, hspec⟩ :=
    sliceValues_spec
      (xMin + (relativeX - g.leftPadding) / max g.plotWidth 1 * xDenominator)
      seriesList hpts
  refine ⟨⟨relativeX,
    xMin + (relativeX - g.leftPadding) / max g.plotWidth 1 * xDenominator,
    values⟩, ?_, rfl, rfl, hlen, hspec⟩
  unfold getHoveredSliceFromMouse
  rw [if_neg hne']
  dsimp only
  rw [if_neg (by push_neg; exact ⟨hx1, hx2, hy1, hy2⟩)]
  rw [hb, hvals]

/-- Witness for `spec_c5` at pointer `(100, 100)` over the sample
series. -/
theorem spec_c5_witness :
    ∃ slice : HoveredSlice,
      getHoveredSliceFromMouse (geometry false) 0 1 [sampleRender1]
          100 100 = some slice ∧
      slice.x = 100 ∧
      slice.xValue = 0 + (100 - (geometry false).leftPadding) /
        max (geometry false).plotWidth 1 * 1 ∧
      slice.values.length = [sampleRender1].length ∧
      ∀ i : ℕ, ∀ hi : i < [sampleRender1].length,
        ∃ np : ProjectedPoint,
          nearestWitness slice.xValue
            ([sampleRender1].get ⟨i, hi⟩).svgPoints np ∧
          slice.values.getD i defaultSliceValue =
            mkSliceValue ([sampleRender1].get ⟨i, hi⟩) np :=
  spec_c5 (geometry false) 0 1 [sampleRender1] 100 100 (by simp)
    (by norm_num [geometry]) (by norm_num [geometry])
    (by norm_num [geometry]) (by norm_num [geometry])
    (by
      intro rs hrs
      rw [List.mem_singleton] at hrs
      subst hrs
      simp [sampleRender1])

/-- `HoveredChartPoint` (lines 48-56). -/
structure HoveredChartPoint where
  runId : ℤ
  runSummary : String
  color : String
  x : ℚ
  y : ℚ
  xValue : ℚ
  yValue : ℚ
  deriving DecidableEq, Repr, Inhabited

/-- The interaction state of one `MetricChart` instance (lines
585-591). -/
structure ChartInteractionState where
  hoveredRunId : Option ℤ
  hoveredPoint : Option HoveredChartPoint
  hoveredSlice : Option HoveredSlice
  pinnedRunId : Option ℤ
  pinnedPoint : Option HoveredChartPoint
  deriving DecidableEq, Repr, Inhabited

/-- The state `clearPinnedSelection` leaves behind (lines 617-623):
everything `null`. -/
def clearedState : ChartInteractionState := ⟨none, none, none, none, none⟩

/-- `toHoveredPoint` (lines 819-835). -/
def toHoveredPoint (rs : RenderSeries) (p : ProjectedPoint) :
    HoveredChartPoint :=
  ⟨rs.runId, rs.clientSummary, rs.color, p.x, p.y, p.xValue, p.yValue⟩

/-- The pointer events whose handlers touch the pin state: the
document-level capture `pointerdown` (lines 612-628), a click on a
series hit path (lines 1121-1139, `closest` is the path-nearest point
when one exists), a click on a point marker (lines 1226-1235), and a
click on a legend chip (lines 1503-1511). -/
inductive ChartEvent where
  | outsidePointerDown
  | pathClick (rs : RenderSeries) (closest : Option ProjectedPoint)
  | markerClick (rs : RenderSeries) (point : ProjectedPoint)
  | legendClick (rs : RenderSeries)

/-- The state transition each handler performs.  The capture-phase
`pointerdown` listener is registered only while a pin is set (the
effect of lines 612-628 returns early when `pinnedRunId === null`), so
`outsidePointerDown` is the identity in the unpinned state. -/
def stepChart (s : ChartInteractionState) : ChartEvent → ChartInteractionState
  | .outsidePointerDown =>
    if s.pinnedRunId.isSome then clearedState else s
  | .pathClick rs closest =>
    if s.pinnedRunId.isSome then s
    else
      match closest with
      | some point =>
        { s with
          pinnedRunId := some rs.runId
          hoveredRunId := some rs.runId
          pinnedPoint := some (toHoveredPoint rs point)
          hoveredPoint := some (toHoveredPoint rs point) }
      | none =>
        { s with
          pinnedRunId := some rs.runId
          hoveredRunId := some rs.runId
          pinnedPoint := none }
  | .markerClick rs point =>
    if s.pinnedRunId.isSome then s
    else
      { s with
        pinnedRunId := some rs.runId
        pinnedPoint := some (toHoveredPoint rs point)
        hoveredRunId := some rs.runId
        hoveredPoint := some (toHoveredPoint rs point) }
  | .legendClick rs =>
    if s.pinnedRunId.isSome then s
    else
      { s with
        pinnedRunId := some rs.runId
        pinnedPoint := none
        hoveredRunId := some rs.runId
        hoveredPoint := none }

/-- C6: while a series is pinned, a pointer-down outside the chart's
interactive surface resets the pinned run, pinned point, hovered run,
hovered point and hovered slice all to `none`, and every click on a
path, marker or legend chip leaves the state unchanged. -/
theorem spec_c6 (s : ChartInteractionState) (hpin : s.pinnedRunId.isSome) :
    (stepChart s .outsidePointerDown = clearedState ∧
      (stepChart s .outsidePointerDown).pinnedRunId = none ∧
      (stepChart s .outsidePointerDown).pinnedPoint = none ∧
      (stepChart s .outsidePointerDown).hoveredRunId = none ∧
      (stepChart s .outsidePointerDown).hoveredPoint = none ∧
      (stepChart s .outsidePointerDown).hoveredSlice = none) ∧
    (∀ (rs : RenderSeries) (closest : Option ProjectedPoint),
      stepChart s (.pathClick rs closest) = s) ∧
    (∀ (rs : RenderSeries) (point : ProjectedPoint),
      stepChart s (.markerClick rs point) = s) ∧
    (∀ rs : RenderSeries, stepChart s (.legendClick rs) = s) := by
  have hout : stepChart s .outsidePointerDown = clearedState := by
    simp only [stepChart]
    rw [if_pos hpin]
  refine ⟨⟨hout, ?_, ?_, ?_, ?_, ?_⟩, ?_, ?_, ?_⟩
  · rw [hout]; rfl
  · rw [hout]; rfl
  · rw [hout]; rfl
  · rw [hout]; rfl
  · rw [hout]; rfl
  · intro rs closest
    simp only [stepChart]
    rw [if_pos hpin]
  · intro rs point
    simp only [stepChart]
    rw [if_pos hpin]
  · intro rs
    simp only [stepChart]
    rw [if_pos hpin]

/-- Witness for `spec_c6` at a concrete pinned state. -/
theorem spec_c6_witness :
    (stepChart ⟨some 101, none, none, some 101, none⟩ .outsidePointerDown =
        clearedState ∧
      (stepChart ⟨some 101, none, none, some 101, none⟩
        .outsidePointerDown).pinnedRunId = none ∧
      (stepChart ⟨some 101, none, none, some 101, none⟩
        .outsidePointerDown).pinnedPoint = none ∧
      (stepChart ⟨some 101, none, none, some 101, none⟩
        .outsidePointerDown).hoveredRunId = none ∧
      (stepChart ⟨some 101, none, none, some 101, none⟩
        .outsidePointerDown).hoveredPoint = none ∧
      (stepChart ⟨some 101, none, none, some 101, none⟩
        .outsidePointerDown).hoveredSlice = none) ∧
    (∀ (rs : RenderSeries) (closest : Option ProjectedPoint),
      stepChart ⟨some 101, none, none, some 101, none⟩
        (.pathClick rs closest) = ⟨some 101, none, none, some 101, none⟩) ∧
    (∀ (rs : RenderSeries) (point : ProjectedPoint),
      stepChart ⟨some 101, none, none, some 101, none⟩
        (.markerClick rs point) = ⟨some 101, none, none, some 101, none⟩) ∧
    (∀ rs : RenderSeries,
      stepChart ⟨some 101, none, none, some 101, none⟩ (.legendClick rs) =
        ⟨some 101, none, none, some 101, none⟩) :=
  spec_c6 ⟨some 101, none, none, some 101, none⟩ (by decide)

/-- `EmulatedParentRun` (src/unnamed/part_000 lines 5-8).  `createdAt`
is modelled as its `Date.parse` value in milliseconds (the comparator in
`page.tsx` line 110 uses only the parsed number); `null` is `none`. -/
structure EmulatedParentRun where
  id : ℤ
  createdAt : Option ℤ
  deriving DecidableEq, Repr, Inhabited

/-- The comparator of `mergedParentRuns` (src/app/page.tsx lines
108-119): parse-difference when both timestamps exist, non-null first,
id descending only when both are null. -/
def parentCompare (a b : EmulatedParentRun) : ℤ :=
  match a.createdAt, b.createdAt with
  | some x, some y => y - x
  | some _, none => -1
  | none, some _ => 1
  | none, none => b.id - a.id

/-- `Array.prototype.sort(parentCompare)` — stable (ES2019).  Since
`parentCompare · · ≤ 0` is a total preorder, the stable sorted result
is unique and equals insertion sort under that relation. -/
def mergedParentRunsSort (l : List EmulatedParentRun) :
    List EmulatedParentRun :=
  List.insertionSort (fun a b => parentCompare a b ≤ 0) l

/-- The order the claim asserts: createdAt descending, nulls last, id
descending as the final tie-break whenever the preceding keys are
equal. -/
def claimedParentOrder (a b : EmulatedParentRun) : Prop :=
  match a.createdAt, b.createdAt with
  | some x, some y => x > y ∨ (x = y ∧ a.id ≥ b.id)
  | some _, none => True
  | none, some _ => False
  | none, none => a.id ≥ b.id

/-- The order the code guarantees: createdAt descending, nulls last,
id descending only between two runs both lacking createdAt; runs with
equal non-null createdAt may appear in either order (the comparator
returns `0` and the stable sort keeps their input order). -/
def amendedParentOrder (a b : EmulatedParentRun) : Prop :=
  match a.createdAt, b.createdAt with
  | some x, some y => x ≥ y
  | some _, none => True
  | none, some _ => False
  | none, none => a.id ≥ b.id

instance : IsTotal EmulatedParentRun (fun a b => parentCompare a b ≤ 0) := by
  constructor
  intro a b
  obtain ⟨aid, acr⟩ := a
  obtain ⟨bid, bcr⟩ := b
  rcases acr with _ | x <;> rcases bcr with _ | y <;>
    simp only [parentCompare] <;> omega

instance : IsTrans EmulatedParentRun (fun a b => parentCompare a b ≤ 0) := by
  constructor
  intro a b c hab hbc
  obtain ⟨aid, acr⟩ := a
  obtain ⟨bid, bcr⟩ := b
  obtain ⟨cid, ccr⟩ := c
  rcases acr with _ | x <;> rcases bcr with _ | y <;> rcases ccr with _ | z <;>
    simp only [parentCompare] at hab hbc ⊢ <;> omega

theorem c9_sample_eval :
    mergedParentRunsSort [⟨1, some 100⟩, ⟨2, some 100⟩] =
      [⟨1, some 100⟩, ⟨2, some 100⟩] := by
  unfold mergedParentRunsSort
  simp only [List.insertionSort, List.orderedInsert]
  norm_num [parentCompare]

/-- C9 (counterexample): two parent runs with the same non-null
createdAt and ids `1, 2` in input order `[1, 2]` keep that order (the
comparator returns `0`), while the claimed id-descending tie-break
would require `[2, 1]`. -/
theorem spec_c9_counterexample :
    mergedParentRunsSort [⟨1, some 100⟩, ⟨2, some 100⟩] =
        [⟨1, some 100⟩, ⟨2, some 100⟩] ∧
      ¬ List.Pairwise claimedParentOrder
        (mergedParentRunsSort [⟨1, some 100⟩, ⟨2, some 100⟩]) := by
  refine ⟨c9_sample_eval, ?_⟩
  rw [c9_sample_eval]
  intro hpw
  have h := (List.pairwise_cons.mp hpw).1 ⟨2, some 100⟩
    (List.mem_singleton_self _)
  simp only [claimedParentOrder] at h
  omega

/-- C9 (amended): the consumer sort returns a permutation of its input
ordered by createdAt descending with nulls last; id descending is the
tie-break only between parent runs both lacking createdAt, and runs
with equal non-null createdAt keep their relative input order (stable
sort, comparator `0`). -/
theorem spec_c9 (l : List EmulatedParentRun) :
    List.Perm (mergedParentRunsSort l) l ∧
    List.Pairwise amendedParentOrder (mergedParentRunsSort l) := by
  refine ⟨List.perm_insertionSort _ l, ?_⟩
  have hs : List.Pairwise (fun a b => parentCompare a b ≤ 0)
      (mergedParentRunsSort l) :=
    List.sorted_insertionSort (fun a b => parentCompare a b ≤ 0) l
  refine List.Pairwise.imp ?_ hs
  intro a b h
  obtain ⟨aid, acr⟩ := a
  obtain ⟨bid, bcr⟩ := b
  rcases acr with _ | x <;> rcases bcr with _ | y <;>
    simp only [parentCompare] at h <;> simp only [amendedParentOrder] <;>
    first
    | trivial
    | omega

end Jumpserve
